import Mathlib

/-!
Verification development for the storybook-astro pre-rendering pipeline.

Shallow embedding of:
- the `createAstro` calling-convention compatibility wrapper
  (`patchCreateAstroCompat` in `packages/@storybook/astro/src/testing.ts`,
  also shipped in the middleware module),
- the image-metadata argument normalization (`processImageMetadata`,
  `isImageMetadata`, `convertImageMetadataToUrl` in the same file),
- the build-time pre-render plugin (`vitePluginAstroBuildPrerender`):
  story-file gating, `.astro` import discovery, argument merging,
  the per-story render loop, `/@fs` asset URL rewriting and the
  `renderChunk` placeholder resolution,
- the dev-mode render request/response websocket handler
  (`viteStorybookAstroMiddlewarePlugin.ts`).

JavaScript values are modelled by the inductive `JsVal`; JS objects are
association lists of string keys (unique keys are not enforced, property
access is first-match lookup which coincides with JS semantics on real
objects).  External collaborators (the Vite dev server, `this.parse`,
`this.resolve`, `ssrLoadModule`, the render handler, `readFileSync`,
`emitFile`, `getFileName`) are oracle parameters.
-/

namespace StorybookAstro

/-- Model of a JavaScript value as it appears in story args/props trees.
`undef` is JavaScript `undefined`, distinct from `null`. Arrays and plain
objects are separate constructors; functions and other exotic values do
not occur in the places the modelled code inspects. -/
inductive JsVal where
  | str (s : String)
  | num (n : Int)
  | bool (b : Bool)
  | null
  | undef
  | arr (items : List JsVal)
  | obj (fields : List (String × JsVal))
  deriving Repr

/-- First-match association-list lookup: JS property access `o[k]` on an
object modelled as an entry list (`none` = property absent).  Also used
with `Nat` keys for heap addresses. -/
def alookup {α β : Type} [DecidableEq α] (k : α) : List (α × β) → Option β
  | [] => none
  | (k', v) :: rest => if k' = k then some v else alookup k rest

/-- JavaScript truthiness of a modelled value (`""`, `0`, `false`, `null`,
`undefined` are falsy; every array or object is truthy). -/
def truthy : JsVal → Bool
  | .str s => s ≠ ""
  | .num n => n ≠ 0
  | .bool b => b
  | .null => false
  | .undef => false
  | .arr _ => true
  | .obj _ => true

/-! ## The createAstro calling-convention compatibility wrapper

Source: `patchCreateAstroCompat` in
`packages/@storybook/astro/src/testing.ts` (middleware copy), lines
312-337.  The per-render `result` object and the component factory are
modelled over an opaque value type `κ`; `result.createAstro` being a
callable method is `Option (List κ → κ)` (`none` = the property is
absent or falsy, so `result && result.createAstro` fails). -/

/-- Model of the per-render `result` object handed to a component
factory.  `rest` stands for all the other state on the result object,
which the wrapper does not touch. -/
structure RenderResultObj (κ : Type) where
  createAstro : Option (List κ → κ)
  rest : κ

/-- Model of a compiled Astro component factory: a callable taking
`(result, props, slots)` plus the metadata fields the container checks.
`Option (RenderResultObj κ)` is the `result` argument, `none` standing
for `null`/`undefined`. -/
structure AstroComponentFactory (κ : Type) where
  call : Option (RenderResultObj κ) → κ → κ → κ
  isAstroComponentFactory : Bool
  moduleId : String
  propagation : κ

/-- The replacement `createAstro` installed by the wrapper: the arrow
function `(...args) => args.length === 3 ? orig(args[1], args[2]) :
orig(...args)` from the source (a three-element argument list is exactly
`args.length === 3`). -/
def patchCreateAstro {κ : Type} (origCreateAstro : List κ → κ) : List κ → κ :=
  fun args =>
    match args with
    | [_, p, s] => origCreateAstro [p, s]
    | _ => origCreateAstro args

/-- Model of `patchCreateAstroCompat(Component)`: wraps the factory; when the
per-render result object is present and has a `createAstro` method it is
replaced by `patchCreateAstro` of the original before the component body
runs, otherwise the result object is passed through untouched.  The
factory metadata (`isAstroComponentFactory`, `moduleId`, `propagation`)
is copied onto the wrapped factory. -/
def patchCreateAstroCompat {κ : Type} (Component : AstroComponentFactory κ) :
    AstroComponentFactory κ where
  call := fun result props slots =>
    match result with
    | some r =>
      match r.createAstro with
      | some orig =>
        Component.call (some { r with createAstro := some (patchCreateAstro orig) }) props slots
      | none => Component.call (some r) props slots
    | none => Component.call none props slots
  isAstroComponentFactory := Component.isAstroComponentFactory
  moduleId := Component.moduleId
  propagation := Component.propagation

/-- C1: a 3-argument call `(X, P, S)` of the patched `createAstro`
invokes the original with exactly `(P, S)`; a 2-argument call `(P, S)`
invokes it unchanged with `(P, S)`; the wrapper installs exactly
`patchCreateAstro` of the original method on the result object; and the
wrapped factory carries the same `isAstroComponentFactory`, `moduleId`
and `propagation` values as the original factory. -/
theorem c1_patchCreateAstro_calling_convention {κ : Type}
    (origCreateAstro : List κ → κ) (x p s : κ)
    (C : AstroComponentFactory κ) (r : κ) (props slots : κ) :
    patchCreateAstro origCreateAstro [x, p, s] = origCreateAstro [p, s]
    ∧ patchCreateAstro origCreateAstro [p, s] = origCreateAstro [p, s]
    ∧ (patchCreateAstroCompat C).call (some ⟨some origCreateAstro, r⟩) props slots
        = C.call (some ⟨some (patchCreateAstro origCreateAstro), r⟩) props slots
    ∧ (patchCreateAstroCompat C).isAstroComponentFactory = C.isAstroComponentFactory
    ∧ (patchCreateAstroCompat C).moduleId = C.moduleId
    ∧ (patchCreateAstroCompat C).propagation = C.propagation := by
  refine ⟨rfl, rfl, rfl, rfl, rfl, rfl⟩

/-- C10: when the per-render result object is `null`/`undefined` or has
no `createAstro` method, the wrapper patches nothing and invokes the
original factory with exactly the same `(result, props, slots)`
arguments (the result object it passes on is the very same value). -/
theorem c10_patch_no_createAstro_passthrough {κ : Type}
    (C : AstroComponentFactory κ) (r : κ) (props slots : κ) :
    (patchCreateAstroCompat C).call none props slots = C.call none props slots
    ∧ (patchCreateAstroCompat C).call (some ⟨none, r⟩) props slots
        = C.call (some ⟨none, r⟩) props slots := by
  exact ⟨rfl, rfl⟩

/-! ## Image-metadata argument normalization

Source: `processImageMetadata`, `isImageMetadata`,
`convertImageMetadataToUrl` in
`packages/@storybook/astro/src/testing.ts`, lines 344-393.
`processImageMetadata` takes a `Record<string, unknown>` (an entry list
here) and rebuilds it entry by entry.  The `await`/`Promise.all`
plumbing is irrelevant to the values computed and is dropped. -/

/-- Guard `isImageMetadata(value)`: value is a non-null object with a string
`src` property and at least one of `width`/`height`/`format` present.
An array has none of these properties, so the guard is false on arrays,
and `typeof` of every non-object/non-array value rules it out. -/
def isImageMetadata : JsVal → Bool
  | .obj fields =>
    (match alookup "src" fields with
     | some (.str _) => true
     | _ => false)
    && ((alookup "width" fields).isSome
        || (alookup "height" fields).isSome
        || (alookup "format" fields).isSome)
  | _ => false

/-- Conversion `convertImageMetadataToUrl(imageMetadata)`:
`imageMetadata.src || imageMetadata.fsPath || String(imageMetadata)`.
`String(...)` of a plain object is `"[object Object]"`. -/
def convertImageMetadataToUrl (fields : List (String × JsVal)) : JsVal :=
  let src := (alookup "src" fields).getD .undef
  if truthy src then src
  else
    let fsp := (alookup "fsPath" fields).getD .undef
    if truthy fsp then fsp else .str "[object Object]"

/-- Object.entries of a JS array: index keys (as strings) paired with the
elements, in order.  This is what happens in the source when an array
lands in the `processImageMetadata(item as Record<string, unknown>)`
recursive call. -/
def arrayEntryKeys (i : Nat) (items : List JsVal) : List (String × JsVal) :=
  match items with
  | [] => []
  | x :: xs => (toString i, x) :: arrayEntryKeys (i + 1) xs

mutual
/-- Size measure on modelled JS values, used only for termination of the
normalization functions. -/
def jsSize : JsVal → Nat
  | .str _ => 1
  | .num _ => 1
  | .bool _ => 1
  | .null => 1
  | .undef => 1
  | .arr items => 1 + jsSizeItems items
  | .obj fields => 1 + jsSizeFields fields

/-- Size of an array's element list. -/
def jsSizeItems : List JsVal → Nat
  | [] => 1
  | x :: xs => 1 + jsSize x + jsSizeItems xs

/-- Size of an object's entry list. -/
def jsSizeFields : List (String × JsVal) → Nat
  | [] => 1
  | (_, v) :: fs => 1 + jsSize v + jsSizeFields fs
end

/-- Reindexing an array as a string-keyed record preserves the size of
its values. -/
theorem jsSizeFields_arrayEntryKeys (i : Nat) (items : List JsVal) :
    jsSizeFields (arrayEntryKeys i items) = jsSizeItems items := by
  induction items generalizing i with
  | nil => simp [arrayEntryKeys, jsSizeFields, jsSizeItems]
  | cons x xs ih =>
    simp [arrayEntryKeys, jsSizeFields, jsSizeItems, ih]

mutual
/-- Model of `processImageMetadata(args)`: rebuilds the record entry by entry;
each entry value goes through the dispatch of the source's `for` loop
body (`processIMValue`). -/
def processImageMetadata : List (String × JsVal) → List (String × JsVal)
  | [] => []
  | (k, v) :: rest => (k, processIMValue v) :: processImageMetadata rest
termination_by l => jsSizeFields l
decreasing_by all_goals (simp [jsSize, jsSizeItems, jsSizeFields, jsSizeFields_arrayEntryKeys]; try omega)

/-- Dispatch of the loop body on one entry value, in source order:
`isImageMetadata` first (false on every array, so matching on the
constructor preserves the source's check order), then
`Array.isArray(value)` with the per-item rule, then recursion into plain
objects, else pass the value through. -/
def processIMValue : JsVal → JsVal
  | .str s => .str s
  | .num n => .num n
  | .bool b => .bool b
  | .null => .null
  | .undef => .undef
  | .arr items => .arr (processIMItems items)
  | .obj fields =>
    if isImageMetadata (.obj fields) then convertImageMetadataToUrl fields
    else .obj (processImageMetadata fields)
termination_by v => jsSize v
decreasing_by all_goals (simp [jsSize, jsSizeItems, jsSizeFields, jsSizeFields_arrayEntryKeys]; try omega)

/-- Mapping `value.map(item => ...)` over an array value. -/
def processIMItems : List JsVal → List JsVal
  | [] => []
  | x :: xs => processIMItem x :: processIMItems xs
termination_by l => jsSizeItems l
decreasing_by all_goals (simp [jsSize, jsSizeItems, jsSizeFields, jsSizeFields_arrayEntryKeys]; try omega)

/-- Per-item rule inside arrays: `typeof item === 'object' && item !==
null ? await processImageMetadata(item as Record<string, unknown>) :
item`.  There is no `isImageMetadata` check here: an object item — even
one of image-metadata shape — is handed to `processImageMetadata`, which
processes its entries and returns a plain record; an array item likewise
becomes a plain record keyed by its indices (`Object.entries` of an
array). -/
def processIMItem : JsVal → JsVal
  | .obj fields => .obj (processImageMetadata fields)
  | .arr items => .obj (processImageMetadata (arrayEntryKeys 0 items))
  | .str s => .str s
  | .num n => .num n
  | .bool b => .bool b
  | .null => .null
  | .undef => .undef
termination_by v => jsSize v
decreasing_by all_goals (simp [jsSize, jsSizeItems, jsSizeFields, jsSizeFields_arrayEntryKeys]; try omega)
end

/-- C2 (counterexample): an image-metadata object that is a direct array
element is NOT replaced by its `src` string — `processImageMetadata`
recurses into it as a plain object and returns it unchanged, so the
claimed output `[("k", ["/x.png"])]` is not produced. -/
theorem c2_array_element_counterexample :
    processImageMetadata
        [("k", JsVal.arr [JsVal.obj [("src", JsVal.str "/x.png"), ("width", JsVal.num 10)]])]
      = [("k", JsVal.arr [JsVal.obj [("src", JsVal.str "/x.png"), ("width", JsVal.num 10)]])]
    ∧ processImageMetadata
        [("k", JsVal.arr [JsVal.obj [("src", JsVal.str "/x.png"), ("width", JsVal.num 10)]])]
      ≠ [("k", JsVal.arr [JsVal.str "/x.png"])] := by
  constructor
  · simp [processImageMetadata, processIMValue, processIMItems, processIMItem,
      isImageMetadata, alookup, convertImageMetadataToUrl, truthy]
  · simp [processImageMetadata, processIMValue, processIMItems, processIMItem,
      isImageMetadata, alookup, convertImageMetadataToUrl, truthy]

/-- C2 (amended): image-metadata normalization replaces a value of
image-metadata shape with its `src` string when that value sits as the
value of an object key — at top level or inside nested plain objects at
any depth (the rewrite distributes through object nesting); plain string
values are left untouched everywhere; but an image-metadata object that
is a direct element of an array is not replaced: the per-item rule
recurses into it as a plain object instead. -/
theorem c2_processImageMetadata_amended
    (k : String) (s : String) (fields rest : List (String × JsVal))
    (items : List JsVal) :
    (isImageMetadata (.obj fields) = true →
      processImageMetadata ((k, .obj fields) :: rest)
        = (k, convertImageMetadataToUrl fields) :: processImageMetadata rest)
    ∧ (alookup "src" fields = some (.str s) → s ≠ "" →
        convertImageMetadataToUrl fields = .str s)
    ∧ (isImageMetadata (.obj fields) = false →
        processImageMetadata ((k, .obj fields) :: rest)
          = (k, .obj (processImageMetadata fields)) :: processImageMetadata rest)
    ∧ processImageMetadata ((k, .str s) :: rest)
        = (k, .str s) :: processImageMetadata rest
    ∧ processImageMetadata ((k, .arr items) :: rest)
        = (k, .arr (processIMItems items)) :: processImageMetadata rest
    ∧ processIMItem (.obj fields) = .obj (processImageMetadata fields)
    ∧ processIMItem (.str s) = .str s := by
  refine ⟨?_, ?_, ?_, ?_, ?_, ?_, ?_⟩
  · intro h
    simp [processImageMetadata, processIMValue, h]
  · intro hsrc hne
    simp [convertImageMetadataToUrl, hsrc, truthy, hne]
  · intro h
    simp [processImageMetadata, processIMValue, h]
  · simp [processImageMetadata, processIMValue]
  · simp [processImageMetadata, processIMValue, isImageMetadata]
  · simp [processIMItem]
  · simp [processIMItem]

/-- C2 (witness): the amended theorem applied at concrete inputs — a
top-level metadata value becomes its `src` string, a depth-2 metadata
value (inside a nested plain object) becomes its `src` string, and a
metadata object sitting as an array element stays an object. -/
theorem c2_processImageMetadata_amended_witness :
    processImageMetadata
        [("img", JsVal.obj [("src", JsVal.str "/x.png"), ("width", JsVal.num 10)])]
      = [("img", JsVal.str "/x.png")]
    ∧ processImageMetadata
        [("outer", JsVal.obj
          [("img", JsVal.obj [("src", JsVal.str "/x.png"), ("width", JsVal.num 10)])])]
      = [("outer", JsVal.obj [("img", JsVal.str "/x.png")])]
    ∧ processIMItem (JsVal.obj [("src", JsVal.str "/x.png"), ("width", JsVal.num 10)])
        = JsVal.obj [("src", JsVal.str "/x.png"), ("width", JsVal.num 10)] := by
  have hmeta : isImageMetadata
      (.obj [("src", JsVal.str "/x.png"), ("width", JsVal.num 10)]) = true := by
    simp [isImageMetadata, alookup]
  have h1 := (c2_processImageMetadata_amended "img" "/x.png"
      [("src", JsVal.str "/x.png"), ("width", JsVal.num 10)] [] []).1 hmeta
  have h2 := (c2_processImageMetadata_amended "img" "/x.png"
      [("src", JsVal.str "/x.png"), ("width", JsVal.num 10)] [] []).2.1 (by
        simp [alookup]) (by simp)
  have hconv : convertImageMetadataToUrl
      [("src", JsVal.str "/x.png"), ("width", JsVal.num 10)] = JsVal.str "/x.png" := h2
  refine ⟨?_, ?_, ?_⟩
  · rw [h1, hconv]
    simp [processImageMetadata]
  · have houter : isImageMetadata
        (.obj [("img", JsVal.obj [("src", JsVal.str "/x.png"), ("width", JsVal.num 10)])])
          = false := by
      simp [isImageMetadata, alookup]
    have h3 := (c2_processImageMetadata_amended "outer" "/x.png"
        [("img", JsVal.obj [("src", JsVal.str "/x.png"), ("width", JsVal.num 10)])] [] []).2.2.1
        houter
    rw [h3, h1, hconv]
    simp [processImageMetadata]
  · have h4 := (c2_processImageMetadata_amended "k" "/x.png"
        [("src", JsVal.str "/x.png"), ("width", JsVal.num 10)] [] []).2.2.2.2.2.1
    rw [h4]
    simp [processImageMetadata, processIMValue]

/-! ## Argument merging in the pre-render loop

Source: `vitePluginAstroBuildPrerender`, transform hook, lines 113-121:
`const mergedArgs = { ...meta.args, ...story.args };`
`const { slots = {}, ...componentArgs } = mergedArgs;` and the handler
call `slots: (slots ?? {})`. -/

/-- JS object spread `{ ...m, ...s }`: keys of `m` keep their position
but take `s`'s value when `s` also has the key; keys only in `s` are
appended in `s`'s order. -/
def spreadMerge (m s : List (String × JsVal)) : List (String × JsVal) :=
  m.map (fun kv =>
    match alookup kv.1 s with
    | some v => (kv.1, v)
    | none => kv)
  ++ s.filter (fun kv => (alookup kv.1 m).isNone)

/-- The rest pattern `...componentArgs` of
`const { slots = {}, ...componentArgs } = mergedArgs`: every entry except
the `slots` key. -/
def removeSlotsKey (merged : List (String × JsVal)) : List (String × JsVal) :=
  merged.filter (fun kv => kv.1 ≠ "slots")

/-- The destructured `slots` of `const { slots = {} } = mergedArgs`: the
default `{}` applies when the property is absent or `undefined`. -/
def destructureSlotsDefault (merged : List (String × JsVal)) : JsVal :=
  match alookup "slots" merged with
  | none => .obj []
  | some .undef => .obj []
  | some v => v

/-- The `?? {}` applied at the handler call site (`slots: (slots ?? {})`):
nullish values are replaced by `{}`. -/
def nullishCoalesceEmptyObj (v : JsVal) : JsVal :=
  match v with
  | .null => .obj []
  | .undef => .obj []
  | v => v

/-- Lookup distributes over list append, left-biased. -/
theorem alookup_append (a b : List (String × JsVal)) (k : String) :
    alookup k (a ++ b) = (alookup k a).or (alookup k b) := by
  induction a with
  | nil => simp [alookup, Option.or]
  | cons hd tl ih =>
    obtain ⟨k', v⟩ := hd
    by_cases hk : k' = k <;> simp [alookup, hk, ih, Option.or]

/-- Lookup through the spread's override map: a found value is replaced
by `s`'s value for the same key when present. -/
theorem alookup_map_override (m s : List (String × JsVal)) (k : String) :
    alookup k (m.map (fun kv =>
        match alookup kv.1 s with
        | some v => (kv.1, v)
        | none => kv))
      = (alookup k m).map (fun v => (alookup k s).getD v) := by
  induction m with
  | nil => simp [alookup]
  | cons hd tl ih =>
    obtain ⟨k', v⟩ := hd
    by_cases hk : k' = k
    · subst hk
      cases hs : alookup k' s <;> simp [alookup, hs]
    · cases hs : alookup k' s <;> simp [alookup, hk, hs, ih]

/-- Lookup through a key-predicate filter. -/
theorem alookup_filter_key (l : List (String × JsVal)) (p : String → Bool) (k : String) :
    alookup k (l.filter (fun kv => p kv.1)) = if p k then alookup k l else none := by
  induction l with
  | nil => simp [alookup]
  | cons hd tl ih =>
    obtain ⟨k', v⟩ := hd
    by_cases hk : k' = k
    · subst hk
      by_cases hp : p k' <;> simp [List.filter_cons, hp, alookup, ih]
    · by_cases hp : p k' <;> simp [List.filter_cons, hp, alookup, hk, ih]

/-- Lookup through `spreadMerge` is story-precedence key-by-key. -/
theorem alookup_spreadMerge (m s : List (String × JsVal)) (k : String) :
    alookup k (spreadMerge m s) = (alookup k s).or (alookup k m) := by
  unfold spreadMerge
  rw [alookup_append, alookup_map_override,
    alookup_filter_key s (fun x => (alookup x m).isNone) k]
  cases hm : alookup k m <;> cases hs : alookup k s <;> simp [Option.or]

/-- C3: the props handed to the render handler are the shallow,
story-precedence merge of `meta.args` and `story.args` with the reserved
`slots` key removed; the `slots` value is passed separately and defaults
to `{}` when absent (or nullish); and concretely
`meta.args = {a:1, b:2}`, `story.args = {b:3, c:4}` yields props
`{a:1, b:3, c:4}` with slots `{}`. -/
theorem c3_merge_shallow_story_precedence
    (metaArgs storyArgs : List (String × JsVal)) (k : String) :
    (alookup k (removeSlotsKey (spreadMerge metaArgs storyArgs))
      = if k = "slots" then none
        else (alookup k storyArgs).or (alookup k metaArgs))
    ∧ (nullishCoalesceEmptyObj (destructureSlotsDefault (spreadMerge metaArgs storyArgs))
        = match (alookup "slots" storyArgs).or (alookup "slots" metaArgs) with
          | none => .obj []
          | some .undef => .obj []
          | some .null => .obj []
          | some v => v)
    ∧ removeSlotsKey (spreadMerge
        [("a", JsVal.num 1), ("b", JsVal.num 2)]
        [("b", JsVal.num 3), ("c", JsVal.num 4)])
        = [("a", JsVal.num 1), ("b", JsVal.num 3), ("c", JsVal.num 4)]
    ∧ nullishCoalesceEmptyObj (destructureSlotsDefault (spreadMerge
        [("a", JsVal.num 1), ("b", JsVal.num 2)]
        [("b", JsVal.num 3), ("c", JsVal.num 4)])) = JsVal.obj [] := by
  refine ⟨?_, ?_, ?_, ?_⟩
  · unfold removeSlotsKey
    rw [alookup_filter_key (spreadMerge metaArgs storyArgs)
        (fun x => decide ¬x = "slots") k, alookup_spreadMerge]
    by_cases hk : k = "slots"
    · simp [hk]
    · simp [hk]
  · rw [show destructureSlotsDefault (spreadMerge metaArgs storyArgs)
        = (match alookup "slots" (spreadMerge metaArgs storyArgs) with
           | none => JsVal.obj []
           | some .undef => JsVal.obj []
           | some v => v) from rfl]
    rw [alookup_spreadMerge]
    cases h : (alookup "slots" storyArgs).or (alookup "slots" metaArgs) with
    | none => simp [nullishCoalesceEmptyObj]
    | some v => cases v <;> simp [nullishCoalesceEmptyObj]
  · simp [spreadMerge, removeSlotsKey, alookup]
  · simp [spreadMerge, destructureSlotsDefault, nullishCoalesceEmptyObj, alookup]

/-! ## Asset URL rewriting

Source: `emitAndRewriteAssetUrls` (regex
`/\/@fs([^"'>]+)/g` over the rendered HTML) and the plugin's
`renderChunk` hook.  HTML is a character list; `readFileSync` is the
oracle `fs` (`none` = the read threw); `ctx.emitFile` is the oracle
`emit`, indexed by the number of previous emissions in the build and
returning the opaque Rollup reference id. -/

/-- Character-list version of "`pat` is a prefix of `s`". -/
def startsWithSeq : List Char → List Char → Bool
  | [], _ => true
  | _ :: _, [] => false
  | c :: cs, d :: ds => if c = d then startsWithSeq cs ds else false

/-- Number of positions of `s` at which `pat` occurs (all positions,
including overlapping ones). -/
def occursCount (pat : List Char) : List Char → Nat
  | [] => 0
  | c :: rest => (if startsWithSeq pat (c :: rest) then 1 else 0) + occursCount pat rest

/-- JS `String.prototype.includes` for a non-empty pattern. -/
def containsSeq (s pat : List Char) : Bool :=
  0 < occursCount pat s

/-- JS `String.prototype.replaceAll` with a string pattern: non-empty
pattern occurrences are replaced left to right, non-overlapping (the
modelled call sites never pass an empty pattern). -/
def replaceAll (s pat repl : List Char) : List Char :=
  match s with
  | [] => []
  | c :: rest =>
    if h : pat ≠ [] ∧ startsWithSeq pat (c :: rest) = true then
      repl ++ replaceAll ((c :: rest).drop pat.length) pat repl
    else c :: replaceAll rest pat repl
termination_by s.length
decreasing_by
  · simp only [List.length_drop, List.length_cons]
    have hp : 0 < pat.length := List.length_pos.mpr h.1
    omega
  · simp only [List.length_cons]
    omega

/-- The literal `/@fs` of the dev-server URL pattern. -/
def fsUrlPat : List Char := ['/', '@', 'f', 's']

/-- The characters ending the regex capture `[^"'>]+`. -/
def attrDelims : List Char := ['"', Char.ofNat 39, '>']

/-- The `?` starting a query string. -/
def qmChar : Char := '?'

/-- Placeholder text for an emitted asset:
`` `__ASTRO_PRERENDER_ASSET_${refId}__` ``. -/
def assetPlaceholder (refId : String) : String :=
  "__ASTRO_PRERENDER_ASSET_" ++ refId ++ "__"

/-- JS `Map.prototype.set` on an insertion-ordered association list. -/
def mapSet (tbl : List (String × String)) (k v : String) : List (String × String) :=
  if (alookup k tbl).isSome then
    tbl.map (fun p => if p.1 = k then (k, v) else p)
  else tbl ++ [(k, v)]

/-- The body of `emitAndRewriteAssetUrls`: scan for `/@fs` followed by a
non-empty run of non-delimiter characters; strip the query string, read
the file (`none` = the read threw, the original text is left in place),
emit the asset, substitute the placeholder and record
`placeholder → refId`; scanning continues after each match, or one
character on when the position does not match. -/
def emitAndRewriteScan (fs : List Char → Option (List Char)) (emit : Nat → String) :
    List Char → Nat → List (String × String) → List Char × Nat × List (String × String)
  | [], n, tbl => ([], n, tbl)
  | c :: rest, n, tbl =>
    if startsWithSeq fsUrlPat (c :: rest) then
      let afterPat := (c :: rest).drop fsUrlPat.length
      let rawPath := afterPat.takeWhile (fun ch => ¬ (ch ∈ attrDelims))
      if rawPath.isEmpty then
        -- the capture `([^"'>]+)` needs at least one character: no match
        -- at this position, the scan moves on by one character
        let r := emitAndRewriteScan fs emit rest n tbl
        (c :: r.1, r.2.1, r.2.2)
      else
        let afterMatch := afterPat.drop rawPath.length
        let pathOnly := rawPath.takeWhile (fun ch => ch ≠ qmChar)
        match fs pathOnly with
        | some _source =>
          let refId := emit n
          let placeholder := assetPlaceholder refId
          let r := emitAndRewriteScan fs emit afterMatch (n + 1) (mapSet tbl placeholder refId)
          (placeholder.data ++ r.1, r.2.1, r.2.2)
        | none =>
          let r := emitAndRewriteScan fs emit afterMatch n tbl
          (fsUrlPat ++ rawPath ++ r.1, r.2.1, r.2.2)
    else
      let r := emitAndRewriteScan fs emit rest n tbl
      (c :: r.1, r.2.1, r.2.2)
termination_by l n tbl => l.length
decreasing_by
  · simp only [List.length_cons]
    omega
  · simp only [List.length_drop, List.length_cons]
    have h4 : fsUrlPat.length = 4 := rfl
    omega
  · simp only [List.length_drop, List.length_cons]
    have h4 : fsUrlPat.length = 4 := rfl
    omega
  · simp only [List.length_cons]
    omega

/-- Build-scoped rewrite state: the number of `emitFile` calls so far and
the `assetRefIds` placeholder table. -/
structure RewriteState where
  emitCount : Nat
  table : List (String × String)
  deriving Repr

/-- Wrapper `emitAndRewriteAssetUrls(html, ctx, refIds)` on a `String`. -/
def emitAndRewriteAssetUrls (fs : List Char → Option (List Char)) (emit : Nat → String)
    (html : String) (st : RewriteState) : String × RewriteState :=
  let r := emitAndRewriteScan fs emit html.data st.emitCount st.table
  (⟨r.1⟩, ⟨r.2.1, r.2.2⟩)

/-- The plugin's `renderChunk` hook: `null` when the table is empty; else
for each recorded `(placeholder, refId)` in insertion order, if the
placeholder occurs in the running result, replace all its occurrences by
`getFileName refId`; return the result only if something was replaced. -/
def renderChunk (assetRefIds : List (String × String)) (getFileName : String → String)
    (code : List Char) : Option (List Char) :=
  if assetRefIds.isEmpty then none
  else
    let folded := assetRefIds.foldl (fun acc p =>
      if containsSeq acc.1 p.1.data then
        (replaceAll acc.1 p.1.data (getFileName p.2).data, true)
      else acc) (code, false)
    if folded.2 then some folded.1 else none

/-! ## The pre-render orchestrator

Source: `vitePluginAstroBuildPrerender` in the build-prerender plugin
module: `buildStart`, the `transform` hook and `findFirstAstroImport`.
`CompRef` models a loaded component factory; its `refId` stands for the
JS object identity, so `!==` on factories is inequality of `CompRef`
(two structurally similar factories differ in `refId`). -/

/-- A loaded component factory reference: the container marker plus an
identity. -/
structure CompRef where
  isAstroComponentFactory : Bool
  refId : Nat
  deriving DecidableEq, Repr

/-- A named export that is a (non-null) object, viewed through the
properties the plugin reads: an optional `component` override and the
`args` record (absent args = `[]`, matching the spread of `undefined`). -/
structure StoryObjV where
  component : Option CompRef
  args : List (String × JsVal)

/-- A module export as the plugin classifies it: a non-null object, or
anything else (function, string, number, `null`, ...). -/
inductive ExportV where
  | eObj (component : Option CompRef) (args : List (String × JsVal))
  | eOther

/-- The data of one render handler call
`handler({ component, args, slots })`. -/
structure HandlerProps where
  component : String
  args : List (String × JsVal)
  slots : JsVal

/-- Model of `const meta = storyModule.default || \x7b\x7d` viewed through
`meta.component` and `meta.args` (a non-object default export has
neither property). -/
def metaOf (storyModule : List (String × ExportV)) : Option CompRef × List (String × JsVal) :=
  match alookup "default" storyModule with
  | some (.eObj c a) => (c, a)
  | _ => (none, [])

/-- The `storyNames` filter: named exports other than `default` and
`__esModule` whose value is a non-null object, with the story object
read off each. -/
def storyEntriesOf (storyModule : List (String × ExportV)) : List (String × StoryObjV) :=
  storyModule.filterMap (fun kv =>
    match kv with
    | (k, .eObj c a) =>
      if k ≠ "default" ∧ k ≠ "__esModule" then some (k, ⟨c, a⟩) else none
    | _ => none)

/-- Guard `story.component && story.component !== meta.component`: the skip
guard of the pre-render loop (`!==` is reference identity). -/
def storyOverridesComponent (storyComponent : Option CompRef) (metaComponent : CompRef) : Bool :=
  match storyComponent with
  | some sc => sc ≠ metaComponent
  | none => false

/-- The `for (const name of storyNames)` loop: skip overriding stories;
merge args with story precedence; split out `slots`; call the handler
(`none` = the render threw, the story is skipped with a warning); on
success rewrite `/@fs` URLs and record `(name, html)`. -/
def prerenderStories (metaComponent : CompRef) (metaArgs : List (String × JsVal))
    (componentPath : String) (render : HandlerProps → Option String)
    (fs : List Char → Option (List Char)) (emit : Nat → String) :
    List (String × StoryObjV) → RewriteState → List (String × String) × RewriteState
  | [], st => ([], st)
  | (name, story) :: rest, st =>
    if storyOverridesComponent story.component metaComponent then
      prerenderStories metaComponent metaArgs componentPath render fs emit rest st
    else
      let mergedArgs := spreadMerge metaArgs story.args
      let componentArgs := removeSlotsKey mergedArgs
      let slots := destructureSlotsDefault mergedArgs
      match render ⟨componentPath, componentArgs, nullishCoalesceEmptyObj slots⟩ with
      | some html =>
        let p := emitAndRewriteAssetUrls fs emit html st
        let r := prerenderStories metaComponent metaArgs componentPath render fs emit rest p.2
        ((name, p.1) :: r.1, r.2)
      | none =>
        prerenderStories metaComponent metaArgs componentPath render fs emit rest st

/-- One import specifier of an ESTree `ImportDeclaration`. -/
structure ImportSpec where
  isDefaultSpec : Bool
  localName : String

/-- A top-level ESTree node as `findFirstAstroImport` classifies it:
an import declaration (its `source.value` is always a string literal),
or any other statement. -/
inductive ASTNode where
  | importDecl (specifiers : List ImportSpec) (sourceValue : String)
  | otherNode

/-- The `{ local, source }` result of the `.astro` import scan. -/
structure AstroImportRef where
  localName : String
  source : String
  deriving DecidableEq

/-- Model of `findFirstAstroImport(ast)`: walk `ast.body` in order; return the
first import declaration whose source ends in `.astro` AND has a default
specifier (an `.astro` import without a default specifier is passed
over, not a terminating failure). -/
def findFirstAstroImport : List ASTNode → Option AstroImportRef
  | [] => none
  | .importDecl specifiers sourceValue :: rest =>
    if sourceValue.endsWith ".astro" then
      match specifiers.find? (fun sp => sp.isDefaultSpec) with
      | some d => some ⟨d.localName, sourceValue⟩
      | none => findFirstAstroImport rest
    else findFirstAstroImport rest
  | .otherNode :: rest => findFirstAstroImport rest

/-- The story-file gate `/\.stories\.(jsx?|tsx?|mjs)$/.test(id)`. -/
def isStoryFileId (id : String) : Bool :=
  id.endsWith ".stories.js" || id.endsWith ".stories.jsx" ||
  id.endsWith ".stories.ts" || id.endsWith ".stories.tsx" ||
  id.endsWith ".stories.mjs"

/-- One hex digit, lower case. -/
def hexDigit (n : Nat) : Char :=
  if n < 10 then Char.ofNat (48 + n) else Char.ofNat (87 + n)

/-- JSON string escaping of one character, as `JSON.stringify` performs
it on the pre-rendered HTML payload. -/
def jsonEscapeChar (c : Char) : String :=
  if c = '"' then "\\\""
  else if c = Char.ofNat 92 then "\\\\"
  else if c = Char.ofNat 10 then "\\n"
  else if c = Char.ofNat 13 then "\\r"
  else if c = Char.ofNat 9 then "\\t"
  else if c = Char.ofNat 8 then "\\b"
  else if c = Char.ofNat 12 then "\\f"
  else if c.toNat < 32 then
    "\\u00" ++ String.mk [hexDigit (c.toNat / 16), hexDigit (c.toNat % 16)]
  else String.singleton c

/-- Serialization `JSON.stringify` of a string value. -/
def jsonStringify (s : String) : String :=
  "\"" ++ String.join (s.data.map jsonEscapeChar) ++ "\""

/-- The injected source appended for one pre-rendered export: assigns
`parameters.__astroPrerendered`, merging with any existing parameters. -/
def injectionFor (name html : String) : String :=
  "if (typeof " ++ name ++ " !== \x27undefined\x27 && " ++ name ++
    " && typeof " ++ name ++ " === \x27object\x27) \x7b\n" ++
  "  " ++ name ++ ".parameters = Object.assign(\x7b\x7d, " ++ name ++
    ".parameters, \x7b __astroPrerendered: " ++ jsonStringify html ++ " \x7d);\n" ++
  "\x7d"

/-- Joining `injections.join('\n')` over the pre-rendered exports. -/
def prerenderInjections (prerendered : List (String × String)) : String :=
  String.intercalate "\n" (prerendered.map (fun p => injectionFor p.1 p.2))

/-- The plugin's per-build state after `buildStart`: the internal Vite
server handle and the render handler, both `none` until initialization
succeeds. -/
structure PluginCtx where
  viteServer : Option Unit
  handler : Option (HandlerProps → Option String)

/-- The `buildStart` hook: on success both fields are live; when server
or handler creation throws, the catch logs a warning and both fields
stay `null`. -/
def buildStart (createServerAndHandler :
    Except String (Unit × (HandlerProps → Option String))) : PluginCtx :=
  match createServerAndHandler with
  | .ok vh => ⟨some vh.1, some vh.2⟩
  | .error _ => ⟨none, none⟩

/-- The `transform(code, id)` hook.  Oracles: `parse` (`this.parse`),
`resolve` (`this.resolve`, `none` = unresolved), `ssrLoadModule` (the
module evaluation; `.error` = it threw and the file is skipped with a
warning), `fs`/`emit` for asset rewriting.  Returns the transformed code
(`none` = the hook returned `null`), the rewrite state after the call,
and the number of `ssrLoadModule` calls made. -/
def transform (ctx : PluginCtx)
    (parse : String → List ASTNode)
    (resolve : String → String → Option String)
    (ssrLoadModule : Except String (List (String × ExportV)))
    (fs : List Char → Option (List Char)) (emit : Nat → String)
    (code id : String) (st : RewriteState) :
    Option String × RewriteState × Nat :=
  match ctx.handler, ctx.viteServer with
  | some render, some _ =>
    if isStoryFileId id then
      match findFirstAstroImport (parse code) with
      | none => (none, st, 0)
      | some astroImport =>
        match resolve astroImport.source id with
        | none => (none, st, 0)
        | some componentPath =>
          match ssrLoadModule with
          | .error _ => (none, st, 1)
          | .ok storyModule =>
            match (metaOf storyModule).1 with
            | none => (none, st, 1)
            | some metaComponent =>
              if metaComponent.isAstroComponentFactory then
                let storyEntries := storyEntriesOf storyModule
                if storyEntries.isEmpty then (none, st, 1)
                else
                  let pr := prerenderStories metaComponent (metaOf storyModule).2
                    componentPath render fs emit storyEntries st
                  if pr.1.isEmpty then (none, pr.2, 1)
                  else
                    (some (code ++ "\n// Pre-rendered by storybook-astro-build-prerender\n"
                        ++ prerenderInjections pr.1), pr.2, 1)
              else (none, st, 1)
    else (none, st, 0)
  | _, _ => (none, st, 0)

/-- C6: when sandbox/server creation throws in `buildStart`, the handler
and server fields stay `null`, and every subsequent `transform` call —
whatever the file, code, oracles or rewrite state — returns `null`,
leaves the rewrite state untouched, performs zero `ssrLoadModule`
evaluations, and (being a total function into `Option`) propagates no
exception. -/
theorem c6_buildStart_failure_disables_pipeline
    (e : String) (parse : String → List ASTNode)
    (resolve : String → String → Option String)
    (ssrLoadModule : Except String (List (String × ExportV)))
    (fs : List Char → Option (List Char)) (emit : Nat → String)
    (code id : String) (st : RewriteState) :
    transform (buildStart (.error e)) parse resolve ssrLoadModule fs emit code id st
      = (none, st, 0) := rfl

/-- The classification one AST node receives in the scan: `some` exactly
when it is an import declaration with a `.astro` source and a default
specifier (yielding the first default specifier's local name). -/
def astroDefaultImportOf (node : ASTNode) : Option AstroImportRef :=
  match node with
  | .importDecl specifiers sourceValue =>
    if sourceValue.endsWith ".astro" then
      (specifiers.find? (fun sp => sp.isDefaultSpec)).map
        (fun d => ⟨d.localName, sourceValue⟩)
    else none
  | .otherNode => none

/-- C7: the Story Discoverer scans only the top-level nodes in source
order and returns the first default-specifier import whose source ends
in `.astro` (the `head?` of the per-node classification, executing
nothing); and when the scan of a file finds no such import, `transform`
returns `null` (the file passes through unchanged) with zero
`ssrLoadModule` evaluations. -/
theorem c7_story_discoverer_first_astro_import (nodes : List ASTNode)
    (ctx : PluginCtx) (parse : String → List ASTNode)
    (resolve : String → String → Option String)
    (ssrLoadModule : Except String (List (String × ExportV)))
    (fs : List Char → Option (List Char)) (emit : Nat → String)
    (code id : String) (st : RewriteState)
    (hnone : findFirstAstroImport (parse code) = none) :
    findFirstAstroImport nodes = (nodes.filterMap astroDefaultImportOf).head?
    ∧ transform ctx parse resolve ssrLoadModule fs emit code id st = (none, st, 0) := by
  constructor
  · induction nodes with
    | nil => simp [findFirstAstroImport]
    | cons hd tl ih =>
      cases hd with
      | importDecl specifiers sourceValue =>
        by_cases hext : sourceValue.endsWith ".astro"
        · cases hfind : specifiers.find? (fun sp => sp.isDefaultSpec) with
          | none =>
            simp [findFirstAstroImport, astroDefaultImportOf, hext, hfind, ih]
          | some d =>
            simp [findFirstAstroImport, astroDefaultImportOf, hext, hfind]
        · simp [findFirstAstroImport, astroDefaultImportOf, hext, ih]
      | otherNode => simp [findFirstAstroImport, astroDefaultImportOf, ih]
  · rcases ctx with ⟨vs, hd⟩
    cases hd with
    | none => cases vs <;> rfl
    | some render =>
      cases vs with
      | none => rfl
      | some u =>
        by_cases hid : isStoryFileId id
        · simp [transform, hid, hnone]
        · simp [transform, hid]

/-- C7 (witness): the discoverer and the pass-through at concrete
inputs: an AST whose only `.astro` import has no default specifier, and
a parse oracle producing it, so the scan returns `none` and `transform`
is the identity no-op. -/
theorem c7_story_discoverer_witness :
    findFirstAstroImport
        [ASTNode.importDecl [⟨false, "helper"⟩] "./Button.astro", ASTNode.otherNode]
      = ([ASTNode.importDecl [⟨false, "helper"⟩] "./Button.astro",
          ASTNode.otherNode].filterMap astroDefaultImportOf).head?
    ∧ transform ⟨some (), some (fun _ => some "<div></div>")⟩
        (fun _ => [ASTNode.importDecl [⟨false, "helper"⟩] "./Button.astro", ASTNode.otherNode])
        (fun _ _ => none) (.ok []) (fun _ => none) (fun _ => "")
        "code" "Button.stories.ts" ⟨0, []⟩
      = (none, ⟨0, []⟩, 0) := by
  have h := c7_story_discoverer_first_astro_import
    [ASTNode.importDecl [⟨false, "helper"⟩] "./Button.astro", ASTNode.otherNode]
    ⟨some (), some (fun _ => some "<div></div>")⟩
    (fun _ => [ASTNode.importDecl [⟨false, "helper"⟩] "./Button.astro", ASTNode.otherNode])
    (fun _ _ => none) (.ok []) (fun _ => none) (fun _ => "")
    "code" "Button.stories.ts" ⟨0, []⟩
    (by simp [findFirstAstroImport, List.find?])
  exact h

/-- Pre-rendered export names all come from the input story list. -/
theorem prerenderStories_keys_subset (metaComponent : CompRef)
    (metaArgs : List (String × JsVal)) (componentPath : String)
    (render : HandlerProps → Option String)
    (fs : List Char → Option (List Char)) (emit : Nat → String)
    (stories : List (String × StoryObjV)) (st : RewriteState) :
    ((prerenderStories metaComponent metaArgs componentPath render fs emit
        stories st).1.map Prod.fst) ⊆ stories.map Prod.fst := by
  induction stories generalizing st with
  | nil => simp [prerenderStories]
  | cons hd tl ih =>
    obtain ⟨n0, s0⟩ := hd
    by_cases hskip : storyOverridesComponent s0.component metaComponent
    · simp only [prerenderStories, hskip, if_true]
      exact (ih st).trans (by simp)
    · simp only [prerenderStories, hskip, Bool.false_eq_true, if_false]
      cases hr : render ⟨componentPath, removeSlotsKey (spreadMerge metaArgs s0.args),
          nullishCoalesceEmptyObj (destructureSlotsDefault (spreadMerge metaArgs s0.args))⟩ with
      | none =>
        exact (ih st).trans (by simp)
      | some html =>
        intro x hx
        simp only [List.map_cons, List.mem_cons] at hx ⊢
        rcases hx with hx | hx
        · exact Or.inl hx
        · exact Or.inr (ih _ hx)

/-- C4: a story that sets `component` to a factory not identical (by
reference identity, modelled as `CompRef` inequality — the two factories
may agree on every other field) to `meta.component` is excluded from the
pre-rendered output, hence never receives
`parameters.__astroPrerendered`; while any sibling story in the same
file that does not override the component and whose render succeeds is
pre-rendered. -/
theorem c4_component_override_excluded (metaComponent : CompRef)
    (metaArgs : List (String × JsVal)) (componentPath : String)
    (render : HandlerProps → Option String)
    (fs : List Char → Option (List Char)) (emit : Nat → String)
    (stories : List (String × StoryObjV)) (st : RewriteState)
    (name : String) (story : StoryObjV) (c : CompRef)
    (hnodup : (stories.map Prod.fst).Nodup)
    (hmem : (name, story) ∈ stories)
    (hset : story.component = some c) (hne : c ≠ metaComponent) :
    name ∉ (prerenderStories metaComponent metaArgs componentPath render fs emit
        stories st).1.map Prod.fst
    ∧ (∀ name' story' html, (name', story') ∈ stories →
        storyOverridesComponent story'.component metaComponent = false →
        render ⟨componentPath, removeSlotsKey (spreadMerge metaArgs story'.args),
          nullishCoalesceEmptyObj (destructureSlotsDefault (spreadMerge metaArgs story'.args))⟩
          = some html →
        name' ∈ (prerenderStories metaComponent metaArgs componentPath render fs emit
          stories st).1.map Prod.fst) := by
  constructor
  · induction stories generalizing st with
    | nil => simp at hmem
    | cons hd tl ih =>
      obtain ⟨n0, s0⟩ := hd
      simp only [List.mem_cons, Prod.mk.injEq] at hmem
      rcases hmem with ⟨hn, hs⟩ | hmem'
      · subst hn
        subst hs
        have hskip : storyOverridesComponent story.component metaComponent = true := by
          simp [storyOverridesComponent, hset, hne]
        simp only [prerenderStories, hskip, if_true]
        have hnotin : name ∉ tl.map Prod.fst := by
          simp only [List.map_cons, List.nodup_cons] at hnodup
          exact hnodup.1
        intro hcontra
        exact hnotin (prerenderStories_keys_subset metaComponent metaArgs componentPath
          render fs emit tl st hcontra)
      · have hnodup' : (tl.map Prod.fst).Nodup := by
          simp only [List.map_cons, List.nodup_cons] at hnodup
          exact hnodup.2
        have hname_ne : name ≠ n0 := by
          simp only [List.map_cons, List.nodup_cons] at hnodup
          intro hcontra
          subst hcontra
          exact hnodup.1 (List.mem_map.mpr ⟨(name, story), hmem', rfl⟩)
        by_cases hskip : storyOverridesComponent s0.component metaComponent
        · simp only [prerenderStories, hskip, if_true]
          exact ih st hnodup' hmem'
        · simp only [prerenderStories, hskip, Bool.false_eq_true, if_false]
          cases hr : render ⟨componentPath, removeSlotsKey (spreadMerge metaArgs s0.args),
              nullishCoalesceEmptyObj (destructureSlotsDefault (spreadMerge metaArgs s0.args))⟩ with
          | none => exact ih st hnodup' hmem'
          | some html =>
            simp only [List.map_cons, List.mem_cons]
            intro hcontra
            rcases hcontra with hcontra | hcontra
            · exact hname_ne hcontra
            · exact ih _ hnodup' hmem' hcontra
  · intro name' story' html hmem' hnoskip hrender
    clear hnodup hmem hset hne
    induction stories generalizing st with
    | nil => simp at hmem'
    | cons hd tl ih =>
      obtain ⟨n0, s0⟩ := hd
      simp only [List.mem_cons, Prod.mk.injEq] at hmem'
      rcases hmem' with ⟨hn, hs⟩ | hmem2
      · subst hn
        subst hs
        simp only [prerenderStories, hnoskip, Bool.false_eq_true, if_false]
        rw [hrender]
        simp
      · by_cases hskip : storyOverridesComponent s0.component metaComponent
        · simp only [prerenderStories, hskip, if_true]
          exact ih st hmem2
        · simp only [prerenderStories, hskip, Bool.false_eq_true, if_false]
          cases hr : render ⟨componentPath, removeSlotsKey (spreadMerge metaArgs s0.args),
              nullishCoalesceEmptyObj (destructureSlotsDefault (spreadMerge metaArgs s0.args))⟩ with
          | none => exact ih st hmem2
          | some html0 =>
            simp only [List.map_cons, List.mem_cons]
            exact Or.inr (ih _ hmem2)

/-- C4 (witness): a two-story file where `SecondStory` overrides the
component with a structurally similar but distinct factory reference and
is excluded, while the sibling `Primary` (no override) is pre-rendered. -/
theorem c4_component_override_excluded_witness :
    "SecondStory" ∉ (prerenderStories ⟨true, 0⟩ [] "/c.astro" (fun _ => some "<p></p>")
        (fun _ => none) (fun _ => "r")
        [("Primary", ⟨none, []⟩), ("SecondStory", ⟨some ⟨true, 1⟩, []⟩)] ⟨0, []⟩).1.map Prod.fst
    ∧ "Primary" ∈ (prerenderStories ⟨true, 0⟩ [] "/c.astro" (fun _ => some "<p></p>")
        (fun _ => none) (fun _ => "r")
        [("Primary", ⟨none, []⟩), ("SecondStory", ⟨some ⟨true, 1⟩, []⟩)] ⟨0, []⟩).1.map Prod.fst := by
  have h := c4_component_override_excluded ⟨true, 0⟩ [] "/c.astro"
    (fun _ => some "<p></p>") (fun _ => none) (fun _ => "r")
    [("Primary", ⟨none, []⟩), ("SecondStory", ⟨some ⟨true, 1⟩, []⟩)] ⟨0, []⟩
    "SecondStory" ⟨some ⟨true, 1⟩, []⟩ ⟨true, 1⟩
    (by simp) (by simp) rfl (by simp)
  refine ⟨h.1, ?_⟩
  exact h.2 "Primary" ⟨none, []⟩ "<p></p>" (by simp)
    (by simp [storyOverridesComponent]) rfl

/-! ## Dev-mode render request/response protocol

Source: the `astro:render:request` websocket listener in
`vitePluginStorybookAstroMiddleware`
(`packages/@storybook/astro/src/viteStorybookAstroMiddlewarePlugin.ts`,
lines 21-44).  The handler is an oracle returning either the rendered
HTML or the thrown error's message. -/

/-- Replace every occurrence of the character `c` by `repl`:
`String.prototype.replace` with a global single-character regex. -/
def replaceCharAll (c : Char) (repl : List Char) : List Char → List Char
  | [] => []
  | x :: xs => (if x = c then repl else [x]) ++ replaceCharAll c repl xs

/-- Escaping `errorMessage.replace(/</g, '&lt;').replace(/>/g, '&gt;')`. -/
def escapeHtmlMessage (s : String) : String :=
  ⟨replaceCharAll '>' "&gt;".data (replaceCharAll '<' "&lt;".data s.data)⟩

/-- The inline error banner sent when a render fails, with the escaped
error message in its `pre` block. -/
def renderErrorBanner (errorMessage : String) : String :=
  "<div style=\"background: #d73838; padding: 12px; color: #f0f0f0; font-family: monospace; border-radius: 4px\">" ++
  "<strong>Error rendering Astro component</strong><br/>" ++
  "<pre style=\"white-space: pre-wrap; margin-top: 8px; font-size: 12px\">" ++
  escapeHtmlMessage errorMessage ++
  "</pre></div>"

/-- A `RenderRequestMessage`'s data:
`{ id, component: modulePath, args?, slots? }`. -/
structure RenderRequestData where
  id : String
  component : String
  args : Option (List (String × JsVal))
  slots : Option JsVal

/-- A `RenderResponseMessage`'s data: `{ id, html }`. -/
structure RenderResponseData where
  id : String
  html : String

/-- The `astro:render:request` listener body: call the handler; on
success send `{ html, id: data.id }`; on a thrown error send
`{ id: data.id, html: banner }` — exactly one response either way, and
no protocol-level failure. -/
def onAstroRenderRequest (handler : RenderRequestData → Except String String)
    (data : RenderRequestData) : RenderResponseData :=
  match handler data with
  | .ok html => ⟨data.id, html⟩
  | .error err => ⟨data.id, renderErrorBanner err⟩

/-- Replacing `c` by a `c`-free string eliminates `c`. -/
theorem not_mem_replaceCharAll_self (c : Char) (repl : List Char) (l : List Char)
    (hrepl : c ∉ repl) : c ∉ replaceCharAll c repl l := by
  induction l with
  | nil => simp [replaceCharAll]
  | cons x xs ih =>
    by_cases hx : x = c
    · simp only [replaceCharAll, hx, if_true, List.mem_append]
      rintro (h | h)
      · exact hrepl h
      · exact ih h
    · simp only [replaceCharAll, hx, if_false, List.cons_append, List.nil_append,
        List.mem_cons]
      rintro (h | h)
      · exact hx h.symm
      · exact ih h

/-- Replacing some other character by a `c`-free string cannot introduce
`c`. -/
theorem not_mem_replaceCharAll_other (c d : Char) (repl : List Char) (l : List Char)
    (hl : c ∉ l) (hrepl : c ∉ repl) : c ∉ replaceCharAll d repl l := by
  induction l with
  | nil => simp [replaceCharAll]
  | cons x xs ih =>
    simp only [List.mem_cons] at hl
    push_neg at hl
    by_cases hx : x = d
    · simp only [replaceCharAll, hx, if_true, List.mem_append]
      rintro (h | h)
      · exact hrepl h
      · exact ih hl.2 h
    · simp only [replaceCharAll, hx, if_false, List.cons_append, List.nil_append,
        List.mem_cons]
      rintro (h | h)
      · exact hl.1 h
      · exact ih hl.2 h

/-- C8: every render request produces exactly one response (the listener
is a total function into a single response value) carrying the same
`id`; on success its `html` is the rendered HTML; on handler failure its
`html` is the error banner whose embedded message is HTML-escaped — the
escaped message contains no raw `<` or `>` — and no protocol-level error
is raised. -/
theorem c8_render_request_single_response
    (handler : RenderRequestData → Except String String)
    (data : RenderRequestData) :
    (onAstroRenderRequest handler data).id = data.id
    ∧ (∀ h, handler data = .ok h → (onAstroRenderRequest handler data).html = h)
    ∧ (∀ e, handler data = .error e →
        (onAstroRenderRequest handler data).html = renderErrorBanner e
        ∧ '<' ∉ (escapeHtmlMessage e).data
        ∧ '>' ∉ (escapeHtmlMessage e).data) := by
  refine ⟨?_, ?_, ?_⟩
  · cases h : handler data <;> simp [onAstroRenderRequest, h]
  · intro html h
    simp [onAstroRenderRequest, h]
  · intro e h
    refine ⟨by simp [onAstroRenderRequest, h], ?_, ?_⟩
    · exact not_mem_replaceCharAll_other '<' '>' "&gt;".data _
        (not_mem_replaceCharAll_self '<' "&lt;".data e.data (by decide)) (by decide)
    · exact not_mem_replaceCharAll_self '>' "&gt;".data _ (by decide)

/-- C8 (witness): a concrete success and a concrete failure, the failure
message containing `<` and `>` that are escaped away. -/
theorem c8_render_request_single_response_witness :
    (onAstroRenderRequest (fun _ => .ok "<div>ok</div>")
        ⟨"42", "/c.astro", none, none⟩).id = "42"
    ∧ (onAstroRenderRequest (fun _ => .ok "<div>ok</div>")
        ⟨"42", "/c.astro", none, none⟩).html = "<div>ok</div>"
    ∧ (onAstroRenderRequest (fun _ => .error "bad <tag> here")
        ⟨"43", "/c.astro", none, none⟩).html = renderErrorBanner "bad <tag> here"
    ∧ '<' ∉ (escapeHtmlMessage "bad <tag> here").data := by
  have h1 := c8_render_request_single_response (fun _ => .ok "<div>ok</div>")
    ⟨"42", "/c.astro", none, none⟩
  have h2 := c8_render_request_single_response (fun _ => .error "bad <tag> here")
    ⟨"43", "/c.astro", none, none⟩
  exact ⟨h1.1, h1.2.1 "<div>ok</div>" rfl, (h2.2.2 "bad <tag> here" rfl).1,
    (h2.2.2 "bad <tag> here" rfl).2.1⟩

/-! ## Occurrence-counting lemmas for the asset-rewriting round trip -/

/-- A matching pattern is no longer than the text. -/
theorem startsWithSeq_length_le (pat s : List Char)
    (h : startsWithSeq pat s = true) : pat.length ≤ s.length := by
  induction pat generalizing s with
  | nil => simp
  | cons p ps ih =>
    cases s with
    | nil => simp [startsWithSeq] at h
    | cons q qs =>
      simp only [startsWithSeq] at h
      split at h
      · simpa using Nat.succ_le_succ (ih qs h)
      · exact absurd h (by simp)

/-- A match survives extending the text on the right. -/
theorem startsWithSeq_extend (pat s t : List Char)
    (h : startsWithSeq pat s = true) : startsWithSeq pat (s ++ t) = true := by
  induction pat generalizing s with
  | nil => simp [startsWithSeq]
  | cons p ps ih =>
    cases s with
    | nil => simp [startsWithSeq] at h
    | cons q qs =>
      simp only [startsWithSeq] at h ⊢
      split at h
      · next hpq => simp only [List.cons_append, hpq, if_true]; exact ih qs h
      · exact absurd h (by simp)

/-- A match that fits inside the left part of an append matches it. -/
theorem startsWithSeq_of_long (pat a b : List Char)
    (h : startsWithSeq pat (a ++ b) = true) (hlen : pat.length ≤ a.length) :
    startsWithSeq pat a = true := by
  induction pat generalizing a with
  | nil => simp [startsWithSeq]
  | cons p ps ih =>
    cases a with
    | nil => simp at hlen
    | cons q qs =>
      simp only [List.cons_append, startsWithSeq] at h ⊢
      split at h
      · next hpq =>
        simp only [hpq, if_true]
        exact ih qs h (by simpa using hlen)
      · exact absurd h (by simp)

/-- A match longer than the left part of an append pins the left part to
the pattern's prefix and the remainder to a match on the right part. -/
theorem startsWithSeq_split (pat a b : List Char)
    (h : startsWithSeq pat (a ++ b) = true) (hlen : a.length < pat.length) :
    pat.take a.length = a ∧ startsWithSeq (pat.drop a.length) b = true := by
  induction a generalizing pat with
  | nil => simpa using h
  | cons q qs ih =>
    cases pat with
    | nil => simp at hlen
    | cons p ps =>
      simp only [List.cons_append, startsWithSeq] at h
      split at h
      · next hpq =>
        have := ih ps h (by simpa using hlen)
        simp only [List.length_cons, List.take_succ_cons, List.drop_succ_cons]
        exact ⟨by rw [hpq, this.1], this.2⟩
      · exact absurd h (by simp)

/-- Every pattern matches at the start of itself-plus-anything. -/
theorem startsWithSeq_refl_append (pat t : List Char) :
    startsWithSeq pat (pat ++ t) = true := by
  induction pat with
  | nil => simp [startsWithSeq]
  | cons p ps ih => simp [startsWithSeq, ih]

/-- Matching heads are equal. -/
theorem startsWithSeq_head (p q : Char) (ps qs : List Char)
    (h : startsWithSeq (p :: ps) (q :: qs) = true) : p = q := by
  simp only [startsWithSeq] at h
  split at h
  · assumption
  · exact absurd h (by simp)

/-- A match of an extended pattern is a match of the pattern. -/
theorem startsWithSeq_append_pat (pat ext s : List Char)
    (h : startsWithSeq (pat ++ ext) s = true) : startsWithSeq pat s = true := by
  induction pat generalizing s with
  | nil => simp [startsWithSeq]
  | cons p ps ih =>
    cases s with
    | nil => simp [startsWithSeq] at h
    | cons q qs =>
      simp only [List.cons_append, startsWithSeq] at h ⊢
      split at h
      · next hpq => simp only [hpq, if_true]; exact ih qs h
      · exact absurd h (by simp)

/-- Occurrence count never drops when text is added on the left. -/
theorem occursCount_le_cons (pat : List Char) (c : Char) (rest : List Char) :
    occursCount pat rest ≤ occursCount pat (c :: rest) := by
  simp only [occursCount]
  omega

/-- Occurrence count of a suffix is at most that of the text. -/
theorem occursCount_drop_le (pat l : List Char) (k : Nat) :
    occursCount pat (l.drop k) ≤ occursCount pat l := by
  induction l generalizing k with
  | nil => simp
  | cons c rest ih =>
    cases k with
    | zero => simp
    | succ k' =>
      calc occursCount pat ((c :: rest).drop (k' + 1))
          = occursCount pat (rest.drop k') := by simp
        _ ≤ occursCount pat rest := ih k'
        _ ≤ occursCount pat (c :: rest) := occursCount_le_cons pat c rest

/-- A match at any position forces a positive count. -/
theorem occursCount_pos_of_match (pat l : List Char) (i : Nat)
    (h : startsWithSeq pat (l.drop i) = true) (hpat : pat ≠ []) :
    0 < occursCount pat l := by
  induction l generalizing i with
  | nil =>
    obtain ⟨p, ps, rfl⟩ := List.exists_cons_of_ne_nil hpat
    simp [startsWithSeq] at h
  | cons c rest ih =>
    cases i with
    | zero =>
      simp only [List.drop_zero] at h
      simp [occursCount, h]
    | succ i' =>
      simp only [List.drop_succ_cons] at h
      have := ih i' h
      have hle := occursCount_le_cons pat c rest
      omega

/-- Matches at two distinct positions force a count of at least two. -/
theorem occursCount_two_of_matches (pat l : List Char) (i j : Nat)
    (hij : i < j) (hi : startsWithSeq pat (l.drop i) = true)
    (hj : startsWithSeq pat (l.drop j) = true) (hpat : pat ≠ []) :
    2 ≤ occursCount pat l := by
  induction l generalizing i j with
  | nil =>
    obtain ⟨p, ps, rfl⟩ := List.exists_cons_of_ne_nil hpat
    simp [startsWithSeq] at hj
  | cons c rest ih =>
    cases i with
    | zero =>
      simp only [List.drop_zero] at hi
      obtain ⟨j', rfl⟩ := Nat.exists_eq_succ_of_ne_zero (Nat.pos_iff_ne_zero.mp hij)
      simp only [List.drop_succ_cons] at hj
      have h1 := occursCount_pos_of_match pat rest j' hj hpat
      simp only [occursCount, hi, if_true]
      omega
    | succ i' =>
      obtain ⟨j', rfl⟩ := Nat.exists_eq_succ_of_ne_zero (by omega : j ≠ 0)
      simp only [List.drop_succ_cons] at hi hj
      have := ih i' j' (by omega) hi hj
      have hle := occursCount_le_cons pat c rest
      omega

/-- A positive count exhibits a match position. -/
theorem exists_match_of_occursCount_pos (pat l : List Char)
    (h : 0 < occursCount pat l) :
    ∃ i, i < l.length ∧ startsWithSeq pat (l.drop i) = true := by
  induction l with
  | nil => simp [occursCount] at h
  | cons c rest ih =>
    by_cases hc : startsWithSeq pat (c :: rest) = true
    · exact ⟨0, by simp, by simpa using hc⟩
    · have hrest : 0 < occursCount pat rest := by
        simp only [occursCount] at h
        split at h
        · exact absurd (by assumption) hc
        · omega
      obtain ⟨i, hi, hm⟩ := ih hrest
      exact ⟨i + 1, by simpa using Nat.succ_lt_succ hi, by simpa using hm⟩

/-- Zero count means no position matches. -/
theorem occursCount_zero_iff (pat l : List Char) (hpat : pat ≠ []) :
    occursCount pat l = 0 ↔ ∀ i, startsWithSeq pat (l.drop i) = false := by
  constructor
  · intro h i
    by_contra hc
    have hm : startsWithSeq pat (l.drop i) = true := by
      revert hc
      cases startsWithSeq pat (l.drop i) <;> simp
    have := occursCount_pos_of_match pat l i hm hpat
    omega
  · intro h
    by_contra hc
    obtain ⟨i, _, hm⟩ := exists_match_of_occursCount_pos pat l (by omega)
    rw [h i] at hm
    exact absurd hm (by simp)

/-- No occurrence in an append, given none in either part and no
straddling occurrence across the boundary. -/
theorem occursCount_append_zero (pat a b : List Char) (hpat : pat ≠ [])
    (ha : occursCount pat a = 0) (hb : occursCount pat b = 0)
    (hbound : ∀ j, 0 < j → j < pat.length →
      startsWithSeq (pat.drop j) b = true →
      pat.take j = a.drop (a.length - j) → False) :
    occursCount pat (a ++ b) = 0 := by
  rw [occursCount_zero_iff _ _ hpat]
  intro i
  by_contra hc
  have hm : startsWithSeq pat ((a ++ b).drop i) = true := by
    revert hc
    cases startsWithSeq pat ((a ++ b).drop i) <;> simp
  by_cases hi : a.length ≤ i
  · obtain ⟨k, rfl⟩ : ∃ k, i = a.length + k := ⟨i - a.length, by omega⟩
    rw [List.drop_append] at hm
    have := (occursCount_zero_iff pat b hpat).mp hb k
    rw [this] at hm
    exact absurd hm (by simp)
  · push_neg at hi
    rw [List.drop_append_of_le_length (by omega)] at hm
    by_cases hlen : pat.length ≤ (a.drop i).length
    · have h2 := startsWithSeq_of_long pat (a.drop i) b hm hlen
      have hz := (occursCount_zero_iff pat a hpat).mp ha i
      rw [hz] at h2
      exact absurd h2 (by simp)
    · push_neg at hlen
      have hsp := startsWithSeq_split pat (a.drop i) b hm hlen
      have hlen2 : (a.drop i).length = a.length - i := by simp
      refine hbound (a.length - i) (by omega) (by omega) ?_ ?_
      · rw [← hlen2]
        exact hsp.2
      · have harg : a.length - (a.length - i) = i := by omega
        rw [harg, ← hlen2]
        exact hsp.1

/-- A pattern whose head character does not occur in the text never
occurs in the text. -/
theorem occursCount_zero_of_head_notMem (p : Char) (ps l : List Char)
    (h : p ∉ l) : occursCount (p :: ps) l = 0 := by
  induction l with
  | nil => rfl
  | cons c rest ih =>
    simp only [List.mem_cons] at h
    push_neg at h
    have hs : startsWithSeq (p :: ps) (c :: rest) = false := by
      simp [startsWithSeq, h.1]
    simp [occursCount, hs, ih h.2]

/-- Extending a non-occurring pattern on the right keeps it
non-occurring. -/
theorem occursCount_zero_append_pat (pat ext l : List Char) (hpat : pat ≠ [])
    (h : occursCount pat l = 0) : occursCount (pat ++ ext) l = 0 := by
  have hne : pat ++ ext ≠ [] := by
    intro hcontra
    exact hpat (List.append_eq_nil.mp hcontra).1
  rw [occursCount_zero_iff _ _ hne]
  intro i
  by_contra hc
  have hm : startsWithSeq (pat ++ ext) (l.drop i) = true := by
    revert hc
    cases startsWithSeq (pat ++ ext) (l.drop i) <;> simp
  have h2 := startsWithSeq_append_pat pat ext _ hm
  have hz := (occursCount_zero_iff pat l hpat).mp h i
  rw [hz] at h2
  exact absurd h2 (by simp)

/-- Dropping strictly inside a list keeps its last element. -/
theorem getLast?_drop_of_lt (l : List Char) (i : Nat) (h : i < l.length) :
    (l.drop i).getLast? = l.getLast? := by
  induction l generalizing i with
  | nil => simp at h
  | cons c rest ih =>
    cases i with
    | zero => simp
    | succ i' =>
      have hi' : i' < rest.length := by simpa using h
      simp only [List.drop_succ_cons]
      rw [ih i' hi']
      cases rest with
      | nil => simp at hi'
      | cons d rest' => simp [List.getLast?_cons_cons]

/-- Function `replaceAll` is the identity when the pattern does not occur. -/
theorem replaceAll_of_occursCount_zero (l pat repl : List Char)
    (h : occursCount pat l = 0) (hpat : pat ≠ []) :
    replaceAll l pat repl = l := by
  induction l with
  | nil => simp [replaceAll]
  | cons c rest ih =>
    have hhead : startsWithSeq pat (c :: rest) = false := by
      have := (occursCount_zero_iff pat (c :: rest) hpat).mp h 0
      simpa using this
    have hrest : occursCount pat rest = 0 := by
      simp only [occursCount, hhead, if_false] at h
      omega
    have hcond : ¬(pat ≠ [] ∧ startsWithSeq pat (c :: rest) = true) := by
      rintro ⟨-, h2⟩
      rw [hhead] at h2
      exact absurd h2 (by simp)
    rw [replaceAll, dif_neg hcond, ih hrest]

/-- Function `replaceAll` on a text with exactly one occurrence replaces exactly
that occurrence. -/
theorem replaceAll_single_occurrence (a pat b repl : List Char) (hpat : pat ≠ [])
    (h1 : occursCount pat (a ++ pat ++ b) = 1) :
    replaceAll (a ++ pat ++ b) pat repl = a ++ repl ++ b := by
  induction a with
  | nil =>
    obtain ⟨p, ps, rfl⟩ := List.exists_cons_of_ne_nil hpat
    simp only [List.nil_append] at h1 ⊢
    have hmatch : startsWithSeq (p :: ps) ((p :: ps) ++ b) = true :=
      startsWithSeq_refl_append _ _
    have hcond : ((p :: ps) ≠ [] ∧
        startsWithSeq (p :: ps) (p :: (ps ++ b)) = true) := by
      refine ⟨by simp, ?_⟩
      simpa using hmatch
    rw [show (p :: ps) ++ b = p :: (ps ++ b) from rfl]
    rw [replaceAll, dif_pos hcond]
    have hdrop : (p :: (ps ++ b)).drop (p :: ps).length = b := by
      simp only [List.length_cons, List.drop_succ_cons]
      exact List.drop_left ps b
    rw [hdrop]
    have htail : occursCount (p :: ps) (ps ++ b) = 0 := by
      have hcount : occursCount (p :: ps) (p :: (ps ++ b))
          = 1 + occursCount (p :: ps) (ps ++ b) := by
        simp only [occursCount]
        rw [if_pos (by simpa using hmatch)]
      have h1' : occursCount (p :: ps) (p :: (ps ++ b)) = 1 := by
        simpa using h1
      omega
    have hb0 : occursCount (p :: ps) b = 0 := by
      have hbsub : occursCount (p :: ps) ((ps ++ b).drop ps.length)
          ≤ occursCount (p :: ps) (ps ++ b) := occursCount_drop_le _ _ _
      rw [List.drop_left ps b] at hbsub
      omega
    rw [replaceAll_of_occursCount_zero b _ repl hb0 hpat]
  | cons c a' ih =>
    have hcanon : startsWithSeq pat (((c :: a') ++ pat ++ b).drop (a'.length + 1)) = true := by
      have : ((c :: a') ++ pat ++ b).drop (a'.length + 1) = pat ++ b := by
        simp only [List.cons_append, List.drop_succ_cons, List.append_assoc]
        exact List.drop_left a' (pat ++ b)
      rw [this]
      exact startsWithSeq_refl_append _ _
    have hhead : startsWithSeq pat ((c :: a') ++ pat ++ b) = false := by
      by_contra hc
      have hm : startsWithSeq pat ((c :: a') ++ pat ++ b) = true := by
        revert hc
        cases startsWithSeq pat ((c :: a') ++ pat ++ b) <;> simp
      have h2 := occursCount_two_of_matches pat ((c :: a') ++ pat ++ b)
        0 (a'.length + 1) (by omega) (by simpa using hm) hcanon hpat
      omega
    have hcond : ¬(pat ≠ [] ∧ startsWithSeq pat (c :: (a' ++ pat ++ b)) = true) := by
      rintro ⟨-, h2⟩
      have : startsWithSeq pat ((c :: a') ++ pat ++ b) = true := by
        simpa using h2
      rw [hhead] at this
      exact absurd this (by simp)
    have h1' : occursCount pat (a' ++ pat ++ b) = 1 := by
      have hx : occursCount pat ((c :: a') ++ pat ++ b)
          = (if startsWithSeq pat ((c :: a') ++ pat ++ b) = true then 1 else 0)
            + occursCount pat (a' ++ pat ++ b) := rfl
      have hhead2 : startsWithSeq pat (c :: (a' ++ (pat ++ b))) = false := by
        simpa [List.append_assoc] using hhead
      rw [hx, if_neg (by simp [hhead, hhead2])] at h1
      omega
    have : (c :: a') ++ pat ++ b = c :: (a' ++ pat ++ b) := by simp
    rw [this, replaceAll, dif_neg hcond, ih h1']
    simp

/-- The scanner is the identity (emitting nothing) on text where `/@fs`
never occurs. -/
theorem emitAndRewriteScan_no_match (fs : List Char → Option (List Char))
    (emit : Nat → String) (l : List Char) (n : Nat) (tbl : List (String × String))
    (h : occursCount fsUrlPat l = 0) :
    emitAndRewriteScan fs emit l n tbl = (l, n, tbl) := by
  induction l generalizing n tbl with
  | nil => simp [emitAndRewriteScan]
  | cons c rest ih =>
    have hhead : startsWithSeq fsUrlPat (c :: rest) = false := by
      have := (occursCount_zero_iff _ _ (by simp [fsUrlPat])).mp h 0
      simpa using this
    have hrest : occursCount fsUrlPat rest = 0 := by
      simp only [occursCount, hhead, if_false] at h
      omega
    simp [emitAndRewriteScan, hhead, ih n tbl hrest]

/-- The scanner passes over a region with no match position, then
continues on the rest. -/
theorem emitAndRewriteScan_skip (fs : List Char → Option (List Char))
    (emit : Nat → String) (a rest : List Char) (n : Nat) (tbl : List (String × String))
    (h : ∀ i, i < a.length → startsWithSeq fsUrlPat ((a ++ rest).drop i) = false) :
    emitAndRewriteScan fs emit (a ++ rest) n tbl =
      (a ++ (emitAndRewriteScan fs emit rest n tbl).1,
       (emitAndRewriteScan fs emit rest n tbl).2.1,
       (emitAndRewriteScan fs emit rest n tbl).2.2) := by
  induction a with
  | nil => simp
  | cons c a' ih =>
    have hhead : startsWithSeq fsUrlPat (c :: (a' ++ rest)) = false := by
      have := h 0 (by simp)
      simpa using this
    have hrec := ih (fun i hi => by
      have := h (i + 1) (by simpa using Nat.succ_lt_succ hi)
      simpa using this)
    simp only [List.cons_append, emitAndRewriteScan, hhead, Bool.false_eq_true,
      if_false, hrec]

/-- Function `takeWhile` over an append stops exactly at the boundary when the
left part satisfies the predicate throughout and the right part starts
with a failing character (or is empty). -/
theorem takeWhile_append_all (p : Char → Bool) (path post : List Char)
    (hall : ∀ c ∈ path, p c = true)
    (hpost : post = [] ∨ ∃ d rest', post = d :: rest' ∧ p d = false) :
    (path ++ post).takeWhile p = path := by
  induction path with
  | nil =>
    rcases hpost with rfl | ⟨d, rest', rfl, hd⟩
    · simp
    · simp [List.takeWhile_cons, hd]
  | cons c path' ih =>
    have hc := hall c (by simp)
    simp only [List.cons_append, List.takeWhile_cons, hc, if_true]
    rw [ih (fun x hx => hall x (by simp [hx]))]

/-- The placeholder's character list, decomposed. -/
theorem assetPlaceholder_data (r : String) :
    (assetPlaceholder r).data
      = "__ASTRO_PRERENDER_ASSET_".data ++ r.data ++ "__".data := by
  simp [assetPlaceholder, String.data_append]

/-- The placeholder starts with an underscore. -/
theorem assetPlaceholder_head (r : String) :
    ∃ t, (assetPlaceholder r).data = '_' :: t := by
  refine ⟨"_ASTRO_PRERENDER_ASSET_".data ++ r.data ++ "__".data, ?_⟩
  rw [assetPlaceholder_data]
  rfl

/-- The placeholder ends with an underscore. -/
theorem assetPlaceholder_getLast (r : String) :
    (assetPlaceholder r).data.getLast? = some '_' := by
  rw [assetPlaceholder_data]
  have : "__ASTRO_PRERENDER_ASSET_".data ++ r.data ++ "__".data
      = ("__ASTRO_PRERENDER_ASSET_".data ++ r.data ++ ['_']) ++ ['_'] := by
    simp
  rw [this, List.getLast?_concat]

/-- Pattern `/@fs` never occurs inside a placeholder built from an alphanumeric
reference id. -/
theorem occursCount_fsUrlPat_placeholder (r : String)
    (hr : ∀ c ∈ r.data, c.isAlphanum = true) :
    occursCount fsUrlPat (assetPlaceholder r).data = 0 := by
  rw [assetPlaceholder_data, List.append_assoc]
  apply occursCount_append_zero _ _ _ (by simp [fsUrlPat])
  · decide
  · apply occursCount_append_zero _ _ _ (by simp [fsUrlPat])
    · apply occursCount_zero_of_head_notMem
      intro hmem
      have := hr '/' hmem
      exact absurd this (by decide)
    · decide
    · intro j hj0 hj4 hsw htake
      have h4 : fsUrlPat.length = 4 := rfl
      rw [h4] at hj4
      interval_cases j
      · exact absurd hsw (by decide)
      · exact absurd hsw (by decide)
      · exact absurd hsw (by decide)
  · intro j hj0 hj4 hsw htake
    have h4 : fsUrlPat.length = 4 := rfl
    rw [h4] at hj4
    interval_cases j
    · exact absurd htake (by decide)
    · exact absurd htake (by decide)
    · exact absurd htake (by decide)

/-- C5: the asset-rewriting round trip.  For HTML that contains exactly
one dev-server `/@fs` reference (`pre ++ "/@fs" ++ path ++ post`, the
path non-empty, undelimited, and ended by a delimiter or the end of the
HTML) whose file read succeeds: the rewrite returns the HTML with that
URL replaced by the placeholder — so the original URL no longer occurs
anywhere — and records exactly the one `(placeholder, refId)` pair in
the table; the chunk pass with the final-name mapping replaces the
placeholder by the final name exactly once; and a second chunk pass on
its own output is a no-op (`null`), the placeholder being gone.  The
occurrence-count hypotheses `h7`/`h8` say the placeholder text occurs
exactly once in the rewritten HTML and not at all after resolution,
which is the claim's own scenario (a `pre`/`post`/file name that happens
to spell out the placeholder would defeat it). -/
theorem c5_asset_rewrite_roundtrip
    (fs : List Char → Option (List Char)) (emit : Nat → String)
    (getFileName : String → String)
    (pre path post : List Char) (n : Nat) (content : List Char)
    (h1 : occursCount fsUrlPat (pre ++ fsUrlPat ++ path ++ post) = 1)
    (h2 : path ≠ [])
    (h3 : ∀ c ∈ path, c ∉ attrDelims)
    (h4 : post = [] ∨ ∃ d rest', post = d :: rest' ∧ d ∈ attrDelims)
    (h5 : fs (path.takeWhile (fun ch => ch ≠ qmChar)) = some content)
    (h6 : ∀ c ∈ (emit n).data, c.isAlphanum = true)
    (h7 : occursCount (assetPlaceholder (emit n)).data
        (pre ++ (assetPlaceholder (emit n)).data ++ post) = 1)
    (h8 : occursCount (assetPlaceholder (emit n)).data
        (pre ++ (getFileName (emit n)).data ++ post) = 0) :
    emitAndRewriteScan fs emit (pre ++ fsUrlPat ++ path ++ post) n []
      = (pre ++ (assetPlaceholder (emit n)).data ++ post, n + 1,
         [(assetPlaceholder (emit n), emit n)])
    ∧ occursCount (fsUrlPat ++ path)
        (pre ++ (assetPlaceholder (emit n)).data ++ post) = 0
    ∧ renderChunk [(assetPlaceholder (emit n), emit n)] getFileName
        (pre ++ (assetPlaceholder (emit n)).data ++ post)
      = some (pre ++ (getFileName (emit n)).data ++ post)
    ∧ renderChunk [(assetPlaceholder (emit n), emit n)] getFileName
        (pre ++ (getFileName (emit n)).data ++ post) = none := by
  have hfsne : fsUrlPat ≠ [] := by simp [fsUrlPat]
  have hassoc : pre ++ fsUrlPat ++ path ++ post
      = pre ++ (fsUrlPat ++ (path ++ post)) := by
    simp [List.append_assoc]
  have h1' : occursCount fsUrlPat (pre ++ (fsUrlPat ++ (path ++ post))) = 1 := by
    rw [← hassoc]
    exact h1
  have hcanon : startsWithSeq fsUrlPat
      ((pre ++ (fsUrlPat ++ (path ++ post))).drop pre.length) = true := by
    rw [List.drop_left]
    exact startsWithSeq_refl_append _ _
  -- no match position strictly inside `pre`
  have hF1 : ∀ i, i < pre.length →
      startsWithSeq fsUrlPat ((pre ++ (fsUrlPat ++ (path ++ post))).drop i) = false := by
    intro i hi
    by_contra hc
    have hm : startsWithSeq fsUrlPat
        ((pre ++ (fsUrlPat ++ (path ++ post))).drop i) = true := by
      revert hc
      cases startsWithSeq fsUrlPat ((pre ++ (fsUrlPat ++ (path ++ post))).drop i) <;> simp
    have h2m := occursCount_two_of_matches fsUrlPat
      (pre ++ (fsUrlPat ++ (path ++ post))) i pre.length hi hm hcanon hfsne
    omega
  -- no occurrence of `/@fs` in `post`
  have hF2 : occursCount fsUrlPat post = 0 := by
    rw [occursCount_zero_iff _ _ hfsne]
    intro k
    by_contra hc
    have hm : startsWithSeq fsUrlPat (post.drop k) = true := by
      revert hc
      cases startsWithSeq fsUrlPat (post.drop k) <;> simp
    have hgroup : pre ++ (fsUrlPat ++ (path ++ post))
        = (pre ++ (fsUrlPat ++ path)) ++ post := by
      simp [List.append_assoc]
    have hm2 : startsWithSeq fsUrlPat
        ((pre ++ (fsUrlPat ++ (path ++ post))).drop
          ((pre ++ (fsUrlPat ++ path)).length + k)) = true := by
      rw [hgroup, List.drop_append]
      exact hm
    have hlt : pre.length < (pre ++ (fsUrlPat ++ path)).length + k := by
      simp only [List.length_append]
      have : fsUrlPat.length = 4 := rfl
      omega
    have h2m := occursCount_two_of_matches fsUrlPat
      (pre ++ (fsUrlPat ++ (path ++ post))) pre.length
      ((pre ++ (fsUrlPat ++ path)).length + k) hlt hcanon hm2 hfsne
    omega
  -- no occurrence of `/@fs` in `pre`
  have hF3 : occursCount fsUrlPat pre = 0 := by
    rw [occursCount_zero_iff _ _ hfsne]
    intro i
    by_contra hc
    have hm : startsWithSeq fsUrlPat (pre.drop i) = true := by
      revert hc
      cases startsWithSeq fsUrlPat (pre.drop i) <;> simp
    by_cases hi : i < pre.length
    · have hext := startsWithSeq_extend fsUrlPat (pre.drop i)
        (fsUrlPat ++ (path ++ post)) hm
      have hdr : (pre ++ (fsUrlPat ++ (path ++ post))).drop i
          = pre.drop i ++ (fsUrlPat ++ (path ++ post)) :=
        List.drop_append_of_le_length (by omega)
      have := hF1 i hi
      rw [hdr, hext] at this
      exact absurd this (by simp)
    · push_neg at hi
      rw [List.drop_eq_nil_of_le hi] at hm
      exact absurd hm (by simp [fsUrlPat, startsWithSeq])
  -- the scanner run
  have htw : (path ++ post).takeWhile (fun ch => decide ¬(ch ∈ attrDelims)) = path := by
    apply takeWhile_append_all
    · intro c hc
      exact decide_eq_true (h3 c hc)
    · rcases h4 with rfl | ⟨d, rest', rfl, hd⟩
      · exact Or.inl rfl
      · exact Or.inr ⟨d, rest', rfl, by simp [hd]⟩
  have hpne : path.isEmpty = false := by
    cases path with
    | nil => exact absurd rfl h2
    | cons _ _ => rfl
  have hmapset : mapSet [] (assetPlaceholder (emit n)) (emit n)
      = [(assetPlaceholder (emit n), emit n)] := by
    simp [mapSet, alookup]
  have hmid : emitAndRewriteScan fs emit (fsUrlPat ++ (path ++ post)) n []
      = ((assetPlaceholder (emit n)).data ++ post, n + 1,
         [(assetPlaceholder (emit n), emit n)]) := by
    show emitAndRewriteScan fs emit
      ('/' :: ('@' :: 'f' :: 's' :: (path ++ post))) n [] = _
    rw [emitAndRewriteScan]
    have hsw : startsWithSeq fsUrlPat ('/' :: ('@' :: 'f' :: 's' :: (path ++ post)))
        = true := by
      simp [fsUrlPat, startsWithSeq]
    rw [if_pos hsw]
    simp only [fsUrlPat, List.length_cons, List.length_nil]
    have hdrop4 : ('/' :: ('@' :: 'f' :: 's' :: (path ++ post))).drop (0 + 1 + 1 + 1 + 1)
        = path ++ post := rfl
    rw [hdrop4, htw, hpne]
    simp only [Bool.false_eq_true, if_false]
    rw [List.drop_left, h5, hmapset,
      emitAndRewriteScan_no_match fs emit post (n + 1) _ hF2]
  have hscan : emitAndRewriteScan fs emit (pre ++ (fsUrlPat ++ (path ++ post))) n []
      = (pre ++ ((assetPlaceholder (emit n)).data ++ post), n + 1,
         [(assetPlaceholder (emit n), emit n)]) := by
    rw [emitAndRewriteScan_skip fs emit pre (fsUrlPat ++ (path ++ post)) n [] hF1, hmid]
  -- no `/@fs` anywhere in the rewritten output
  have hplnofs : occursCount fsUrlPat (assetPlaceholder (emit n)).data = 0 :=
    occursCount_fsUrlPat_placeholder (emit n) h6
  have hmid0 : occursCount fsUrlPat ((assetPlaceholder (emit n)).data ++ post) = 0 := by
    apply occursCount_append_zero _ _ _ hfsne hplnofs hF2
    intro j hj0 hj4 hsw htake
    have h4l : fsUrlPat.length = 4 := rfl
    rw [h4l] at hj4
    have hlast := assetPlaceholder_getLast (emit n)
    have hpos : (assetPlaceholder (emit n)).data.length - j
        < (assetPlaceholder (emit n)).data.length := by
      obtain ⟨t, ht⟩ := assetPlaceholder_head (emit n)
      rw [ht]
      simp only [List.length_cons]
      omega
    have hdl := getLast?_drop_of_lt (assetPlaceholder (emit n)).data
      ((assetPlaceholder (emit n)).data.length - j) hpos
    rw [← htake, hlast] at hdl
    interval_cases j <;> exact absurd hdl (by decide)
  have hout0 : occursCount fsUrlPat
      (pre ++ ((assetPlaceholder (emit n)).data ++ post)) = 0 := by
    apply occursCount_append_zero _ _ _ hfsne hF3 hmid0
    intro j hj0 hj4 hsw htake
    have h4l : fsUrlPat.length = 4 := rfl
    rw [h4l] at hj4
    obtain ⟨t, ht⟩ := assetPlaceholder_head (emit n)
    rw [ht] at hsw
    interval_cases j
    · exact absurd ('@' = '_' |> fun _ => startsWithSeq_head _ _ _ _ hsw) (by decide)
    · exact absurd (startsWithSeq_head _ _ _ _ hsw) (by decide)
    · exact absurd (startsWithSeq_head _ _ _ _ hsw) (by decide)
  have hurl0 : occursCount (fsUrlPat ++ path)
      (pre ++ ((assetPlaceholder (emit n)).data ++ post)) = 0 :=
    occursCount_zero_append_pat fsUrlPat path _ hfsne hout0
  -- the chunk pass and its idempotence
  have hphd_ne : (assetPlaceholder (emit n)).data ≠ [] := by
    obtain ⟨t, ht⟩ := assetPlaceholder_head (emit n)
    rw [ht]
    simp
  have hrepl : replaceAll (pre ++ (assetPlaceholder (emit n)).data ++ post)
      (assetPlaceholder (emit n)).data (getFileName (emit n)).data
      = pre ++ (getFileName (emit n)).data ++ post :=
    replaceAll_single_occurrence pre (assetPlaceholder (emit n)).data post
      (getFileName (emit n)).data hphd_ne h7
  have hrc1 : renderChunk [(assetPlaceholder (emit n), emit n)] getFileName
      (pre ++ (assetPlaceholder (emit n)).data ++ post)
      = some (pre ++ (getFileName (emit n)).data ++ post) := by
    have h7r : occursCount (assetPlaceholder (emit n)).data
        (pre ++ ((assetPlaceholder (emit n)).data ++ post)) = 1 := by
      have hx : pre ++ ((assetPlaceholder (emit n)).data ++ post)
          = pre ++ (assetPlaceholder (emit n)).data ++ post := by
        rw [List.append_assoc]
      rw [hx]
      exact h7
    have hcont : containsSeq (pre ++ (assetPlaceholder (emit n)).data ++ post)
        (assetPlaceholder (emit n)).data = true := by
      simp [containsSeq, h7, h7r]
    simp only [renderChunk, List.isEmpty_cons, Bool.false_eq_true, if_false,
      List.foldl_cons, List.foldl_nil, hcont, if_true, hrepl]
  have hrc2 : renderChunk [(assetPlaceholder (emit n), emit n)] getFileName
      (pre ++ (getFileName (emit n)).data ++ post) = none := by
    have h8r : occursCount (assetPlaceholder (emit n)).data
        (pre ++ ((getFileName (emit n)).data ++ post)) = 0 := by
      have hx : pre ++ ((getFileName (emit n)).data ++ post)
          = pre ++ (getFileName (emit n)).data ++ post := by
        rw [List.append_assoc]
      rw [hx]
      exact h8
    have hcont : containsSeq (pre ++ (getFileName (emit n)).data ++ post)
        (assetPlaceholder (emit n)).data = false := by
      simp [containsSeq, h8, h8r]
    simp only [renderChunk, List.isEmpty_cons, Bool.false_eq_true, if_false,
      List.foldl_cons, List.foldl_nil, hcont]
  refine ⟨?_, ?_, hrc1, hrc2⟩
  · rw [hassoc, hscan]
    simp [List.append_assoc]
  · rw [show pre ++ (assetPlaceholder (emit n)).data ++ post
        = pre ++ ((assetPlaceholder (emit n)).data ++ post) from by
      simp [List.append_assoc]]
    exact hurl0

/-- C5 (witness): the round trip at a concrete image tag
`<img src="/@fs/img/a.png"/>` with reference id `7a` and final path
`assets/a-7a.png`. -/
theorem c5_asset_rewrite_roundtrip_witness :
    emitAndRewriteScan (fun _ => some "PNGDATA".data) (fun _ => "7a")
        ("<img src=\"".data ++ fsUrlPat ++ "/img/a.png".data ++ "\"/>".data) 0 []
      = ("<img src=\"".data ++ (assetPlaceholder "7a").data ++ "\"/>".data, 1,
         [(assetPlaceholder "7a", "7a")])
    ∧ occursCount (fsUrlPat ++ "/img/a.png".data)
        ("<img src=\"".data ++ (assetPlaceholder "7a").data ++ "\"/>".data) = 0
    ∧ renderChunk [(assetPlaceholder "7a", "7a")] (fun _ => "assets/a-7a.png")
        ("<img src=\"".data ++ (assetPlaceholder "7a").data ++ "\"/>".data)
      = some ("<img src=\"".data ++ "assets/a-7a.png".data ++ "\"/>".data)
    ∧ renderChunk [(assetPlaceholder "7a", "7a")] (fun _ => "assets/a-7a.png")
        ("<img src=\"".data ++ "assets/a-7a.png".data ++ "\"/>".data) = none := by
  exact c5_asset_rewrite_roundtrip (fun _ => some "PNGDATA".data) (fun _ => "7a")
    (fun _ => "assets/a-7a.png") "<img src=\"".data "/img/a.png".data "\"/>".data 0
    "PNGDATA".data
    (by decide) (by decide) (by decide)
    (Or.inr ⟨'"', "/>".data, rfl, by decide⟩)
    rfl (by decide) (by decide) (by decide)

/-! ## Heap model of `processImageMetadata` for the no-mutation property

The pure model above cannot even express mutation, so the frame claim is
settled against a second embedding of the same source function with an
explicit heap: every JS object or array is a cell at a `Nat` address
(the address is the object's identity), values hold references, and the
function threads the heap and an allocation counter.  The source only
ever reads `args` and writes into the freshly created `processed`
record, so the embedding allocates at fresh addresses and never writes
to an existing one; the frame theorem makes that an invariant, not an
assumption: it is proved from the recursion itself.  Recursion is
fuel-indexed because an adversarial cyclic heap would make the JS
function diverge; `none` means fuel ran out or a reference dangled. -/

/-- A primitive JS value or a reference to a heap cell. -/
inductive HVal where
  | hstr (s : String)
  | hnum (n : Int)
  | hbool (b : Bool)
  | hnull
  | hundef
  | href (a : Nat)
  deriving DecidableEq, Repr

/-- A heap cell: a JS array or a plain object. -/
inductive HObj where
  | harr (items : List HVal)
  | hobj (fields : List (String × HVal))
  deriving Repr

/-- Guard `isImageMetadata` on a heap value: dereference, then the same
object-shape test as the pure model (false on arrays, primitives and
null/undefined). -/
def hIsImageMetadata (h : List (Nat × HObj)) (v : HVal) : Bool :=
  match v with
  | .href a =>
    match alookup a h with
    | some (.hobj fields) =>
      (match alookup "src" fields with
       | some (.hstr _) => true
       | _ => false)
      && ((alookup "width" fields).isSome
          || (alookup "height" fields).isSome
          || (alookup "format" fields).isSome)
    | _ => false
  | _ => false

/-- Truthiness of a heap value (references are objects, always truthy). -/
def htruthy : HVal → Bool
  | .hstr s => s ≠ ""
  | .hnum n => n ≠ 0
  | .hbool b => b
  | .hnull => false
  | .hundef => false
  | .href _ => true

/-- Conversion `convertImageMetadataToUrl` on a dereferenced metadata object. -/
def hConvertImageMetadataToUrl (fields : List (String × HVal)) : HVal :=
  let src := (alookup "src" fields).getD .hundef
  if htruthy src then src
  else
    let fsp := (alookup "fsPath" fields).getD .hundef
    if htruthy fsp then fsp else .hstr "[object Object]"

/-- View `Object.entries` of an array on the heap: index keys in order. -/
def arrayHEntries (i : Nat) (items : List HVal) : List (String × HVal) :=
  match items with
  | [] => []
  | x :: xs => (toString i, x) :: arrayHEntries (i + 1) xs

mutual
/-- Heap-level `processImageMetadata` on the record at address `a`:
process its entries, then allocate the fresh `processed` record.
Returns the new heap, the next free address, and the result's address. -/
def hProcessAddr (fuel : Nat) (h : List (Nat × HObj)) (next : Nat) (a : Nat) :
    Option (List (Nat × HObj) × Nat × Nat) :=
  match fuel with
  | 0 => none
  | fuel + 1 =>
    match alookup a h with
    | some (.hobj fields) =>
      match hProcessFields fuel h next fields with
      | some (h1, n1, fields') => some (h1 ++ [(n1, .hobj fields')], n1 + 1, n1)
      | none => none
    | _ => none
termination_by (fuel, 0, 0)

/-- The `for (const [key, value] of Object.entries(args))` body over the
remaining entries. -/
def hProcessFields (fuel : Nat) (h : List (Nat × HObj)) (next : Nat) :
    List (String × HVal) → Option (List (Nat × HObj) × Nat × List (String × HVal))
  | [] => some (h, next, [])
  | (k, v) :: rest =>
    match hProcessValue fuel h next v with
    | some (h1, n1, v') =>
      match hProcessFields fuel h1 n1 rest with
      | some (h2, n2, rest') => some (h2, n2, (k, v') :: rest')
      | none => none
    | none => none
termination_by l => (fuel, 4, l.length)

/-- The dispatch on one entry value, in source order: the metadata test,
then `Array.isArray` (a fresh array of mapped items), then recursion
into plain objects, else pass the primitive through. -/
def hProcessValue (fuel : Nat) (h : List (Nat × HObj)) (next : Nat) (v : HVal) :
    Option (List (Nat × HObj) × Nat × HVal) :=
  if hIsImageMetadata h v then
    match v with
    | .href a =>
      match alookup a h with
      | some (.hobj fields) => some (h, next, hConvertImageMetadataToUrl fields)
      | _ => none
    | _ => none
  else
    match v with
    | .href a =>
      match alookup a h with
      | some (.harr items) =>
        match hProcessItems fuel h next items with
        | some (h1, n1, items') => some (h1 ++ [(n1, .harr items')], n1 + 1, .href n1)
        | none => none
      | some (.hobj _) =>
        match hProcessAddr fuel h next a with
        | some (h1, n1, r) => some (h1, n1, .href r)
        | none => none
      | none => none
    | .hstr s => some (h, next, .hstr s)
    | .hnum m => some (h, next, .hnum m)
    | .hbool b => some (h, next, .hbool b)
    | .hnull => some (h, next, .hnull)
    | .hundef => some (h, next, .hundef)
termination_by (fuel, 3, 0)

/-- Mapping `value.map(item => ...)` over the remaining array items. -/
def hProcessItems (fuel : Nat) (h : List (Nat × HObj)) (next : Nat) :
    List HVal → Option (List (Nat × HObj) × Nat × List HVal)
  | [] => some (h, next, [])
  | item :: rest =>
    match hProcessItem fuel h next item with
    | some (h1, n1, item') =>
      match hProcessItems fuel h1 n1 rest with
      | some (h2, n2, rest') => some (h2, n2, item' :: rest')
      | none => none
    | none => none
termination_by l => (fuel, 2, l.length)

/-- The per-item rule inside arrays: object items are handed to
`processImageMetadata` (fresh record), array items likewise via their
`Object.entries` view (also a fresh record), primitives pass through —
and, as in the source, there is no metadata test here. -/
def hProcessItem (fuel : Nat) (h : List (Nat × HObj)) (next : Nat) (item : HVal) :
    Option (List (Nat × HObj) × Nat × HVal) :=
  match item with
  | .href a =>
    match alookup a h with
    | some (.hobj _) =>
      match hProcessAddr fuel h next a with
      | some (h1, n1, r) => some (h1, n1, .href r)
      | none => none
    | some (.harr items) =>
      match fuel with
      | 0 => none
      | fuel + 1 =>
        match hProcessFields fuel h next (arrayHEntries 0 items) with
        | some (h1, n1, fields') => some (h1 ++ [(n1, .hobj fields')], n1 + 1, .href n1)
        | none => none
    | none => none
  | .hstr s => some (h, next, .hstr s)
  | .hnum m => some (h, next, .hnum m)
  | .hbool b => some (h, next, .hbool b)
  | .hnull => some (h, next, .hnull)
  | .hundef => some (h, next, .hundef)
termination_by (fuel, 1, 0)
end

/-- The output heap is the input heap plus cells at fresh addresses
only, and the allocation counter never decreases. -/
def HeapExtends (h h' : List (Nat × HObj)) (next next' : Nat) : Prop :=
  next ≤ next' ∧ ∃ ext, h' = h ++ ext ∧ ∀ p ∈ ext, next ≤ p.1

theorem heapExtends_refl (h : List (Nat × HObj)) (next : Nat) :
    HeapExtends h h next next :=
  ⟨le_refl _, [], by simp, by simp⟩

theorem heapExtends_trans {h h1 h2 : List (Nat × HObj)} {next n1 n2 : Nat}
    (e1 : HeapExtends h h1 next n1) (e2 : HeapExtends h1 h2 n1 n2) :
    HeapExtends h h2 next n2 := by
  obtain ⟨hle1, ext1, rfl, hfr1⟩ := e1
  obtain ⟨hle2, ext2, rfl, hfr2⟩ := e2
  refine ⟨le_trans hle1 hle2, ext1 ++ ext2, by simp, ?_⟩
  intro p hp
  rcases List.mem_append.mp hp with hp | hp
  · exact hfr1 p hp
  · exact le_trans hle1 (hfr2 p hp)

/-- Allocating one cell at the current counter preserves the extension
invariant. -/
theorem heapExtends_alloc {h h1 : List (Nat × HObj)} {next n1 : Nat}
    (e : HeapExtends h h1 next n1) (o : HObj) :
    HeapExtends h (h1 ++ [(n1, o)]) next (n1 + 1) :=
  heapExtends_trans e ⟨by omega, [(n1, o)], rfl, by simp⟩

/-- Lookup of a present key is unaffected by appended entries. -/
theorem alookup_append_of_isSome {α β : Type} [DecidableEq α] (k : α)
    (a b : List (α × β)) (h : (alookup k a).isSome = true) :
    alookup k (a ++ b) = alookup k a := by
  induction a with
  | nil => simp [alookup] at h
  | cons hd tl ih =>
    obtain ⟨k', v⟩ := hd
    by_cases hk : k' = k
    · simp [alookup, hk]
    · simp only [alookup, hk, if_false, List.cons_append] at h ⊢
      exact ih h

/-- Addresses at or above the allocation counter are absent from a
well-formed heap. -/
theorem alookup_none_of_ge {β : Type} (h : List (Nat × β)) (next r : Nat)
    (hwf : ∀ p ∈ h, p.1 < next) (hr : next ≤ r) : alookup r h = none := by
  induction h with
  | nil => rfl
  | cons hd tl ih =>
    obtain ⟨k, v⟩ := hd
    have hk : k < next := hwf (k, v) (by simp)
    have hne : k ≠ r := by omega
    simp only [alookup, hne, if_false]
    exact ih (fun p hp => hwf p (by simp [hp]))

/-- Frame lemma for the five heap-processing functions, by strong
induction on fuel: any successful run only appends fresh cells, and a
record run returns a fresh address. -/
theorem hProcess_frame (fuel : Nat) :
    (∀ h next a h' n' r, hProcessAddr fuel h next a = some (h', n', r) →
      HeapExtends h h' next n' ∧ next ≤ r ∧ r < n')
    ∧ (∀ h next item h' n' v', hProcessItem fuel h next item = some (h', n', v') →
      HeapExtends h h' next n')
    ∧ (∀ h next l h' n' l', hProcessItems fuel h next l = some (h', n', l') →
      HeapExtends h h' next n')
    ∧ (∀ h next v h' n' v', hProcessValue fuel h next v = some (h', n', v') →
      HeapExtends h h' next n')
    ∧ (∀ h next l h' n' l', hProcessFields fuel h next l = some (h', n', l') →
      HeapExtends h h' next n') := by
  induction fuel using Nat.strong_induction_on with
  | _ fuel IH =>
  have PAddr : ∀ h next a h' n' r, hProcessAddr fuel h next a = some (h', n', r) →
      HeapExtends h h' next n' ∧ next ≤ r ∧ r < n' := by
    intro h next a h' n' r hrun
    cases fuel with
    | zero => simp [hProcessAddr] at hrun
    | succ f =>
      cases hl : alookup a h with
      | none => simp [hProcessAddr, hl] at hrun
      | some o =>
        cases o with
        | harr items => simp [hProcessAddr, hl] at hrun
        | hobj fields =>
          cases hf : hProcessFields f h next fields with
          | none => simp [hProcessAddr, hl, hf] at hrun
          | some t =>
            obtain ⟨h1, n1, fields'⟩ := t
            have hext := (IH f (by omega)).2.2.2.2 h next fields h1 n1 fields' hf
            simp only [hProcessAddr, hl, hf, Option.some.injEq, Prod.mk.injEq] at hrun
            obtain ⟨rfl, rfl, rfl⟩ := hrun
            exact ⟨heapExtends_alloc hext (.hobj fields'), hext.1, by omega⟩
  have PItem : ∀ h next item h' n' v', hProcessItem fuel h next item = some (h', n', v') →
      HeapExtends h h' next n' := by
    intro h next item h' n' v' hrun
    cases item with
    | href a =>
      cases hl : alookup a h with
      | none => simp [hProcessItem, hl] at hrun
      | some o =>
        cases o with
        | hobj fields =>
          cases ha : hProcessAddr fuel h next a with
          | none => simp [hProcessItem, hl, ha] at hrun
          | some t =>
            obtain ⟨h1, n1, r⟩ := t
            have hext := PAddr h next a h1 n1 r ha
            simp only [hProcessItem, hl, ha, Option.some.injEq, Prod.mk.injEq] at hrun
            obtain ⟨rfl, rfl, rfl⟩ := hrun
            exact hext.1
        | harr items =>
          cases fuel with
          | zero => simp [hProcessItem, hl] at hrun
          | succ f =>
            cases hf : hProcessFields f h next (arrayHEntries 0 items) with
            | none => simp [hProcessItem, hl, hf] at hrun
            | some t =>
              obtain ⟨h1, n1, fields'⟩ := t
              have hext := (IH f (by omega)).2.2.2.2 h next _ h1 n1 fields' hf
              simp only [hProcessItem, hl, hf, Option.some.injEq, Prod.mk.injEq] at hrun
              obtain ⟨rfl, rfl, rfl⟩ := hrun
              exact heapExtends_alloc hext (.hobj fields')
    | hstr s =>
      simp only [hProcessItem, Option.some.injEq, Prod.mk.injEq] at hrun
      obtain ⟨rfl, rfl, rfl⟩ := hrun
      exact heapExtends_refl h next
    | hnum m =>
      simp only [hProcessItem, Option.some.injEq, Prod.mk.injEq] at hrun
      obtain ⟨rfl, rfl, rfl⟩ := hrun
      exact heapExtends_refl h next
    | hbool b =>
      simp only [hProcessItem, Option.some.injEq, Prod.mk.injEq] at hrun
      obtain ⟨rfl, rfl, rfl⟩ := hrun
      exact heapExtends_refl h next
    | hnull =>
      simp only [hProcessItem, Option.some.injEq, Prod.mk.injEq] at hrun
      obtain ⟨rfl, rfl, rfl⟩ := hrun
      exact heapExtends_refl h next
    | hundef =>
      simp only [hProcessItem, Option.some.injEq, Prod.mk.injEq] at hrun
      obtain ⟨rfl, rfl, rfl⟩ := hrun
      exact heapExtends_refl h next
  have PItems : ∀ l h next h' n' l', hProcessItems fuel h next l = some (h', n', l') →
      HeapExtends h h' next n' := by
    intro l
    induction l with
    | nil =>
      intro h next h' n' l' hrun
      simp only [hProcessItems, Option.some.injEq, Prod.mk.injEq] at hrun
      obtain ⟨rfl, rfl, rfl⟩ := hrun
      exact heapExtends_refl h next
    | cons item rest ih =>
      intro h next h' n' l' hrun
      cases hi : hProcessItem fuel h next item with
      | none => simp [hProcessItems, hi] at hrun
      | some t =>
        obtain ⟨h1, n1, item'⟩ := t
        cases hr : hProcessItems fuel h1 n1 rest with
        | none => simp [hProcessItems, hi, hr] at hrun
        | some t2 =>
          obtain ⟨h2, n2, rest'⟩ := t2
          simp only [hProcessItems, hi, hr, Option.some.injEq, Prod.mk.injEq] at hrun
          obtain ⟨rfl, rfl, rfl⟩ := hrun
          exact heapExtends_trans (PItem h next item h1 n1 item' hi)
            (ih h1 n1 h2 n2 rest' hr)
  have PValue : ∀ h next v h' n' v', hProcessValue fuel h next v = some (h', n', v') →
      HeapExtends h h' next n' := by
    intro h next v h' n' v' hrun
    by_cases hmeta : hIsImageMetadata h v = true
    · cases v with
      | href a =>
        cases hl : alookup a h with
        | none => simp [hProcessValue, hmeta, hl] at hrun
        | some o =>
          cases o with
          | harr items => simp [hProcessValue, hmeta, hl] at hrun
          | hobj fields =>
            simp only [hProcessValue, hmeta, if_true, hl, Option.some.injEq,
              Prod.mk.injEq] at hrun
            obtain ⟨rfl, rfl, rfl⟩ := hrun
            exact heapExtends_refl h next
      | hstr s => simp [hIsImageMetadata] at hmeta
      | hnum m => simp [hIsImageMetadata] at hmeta
      | hbool b => simp [hIsImageMetadata] at hmeta
      | hnull => simp [hIsImageMetadata] at hmeta
      | hundef => simp [hIsImageMetadata] at hmeta
    · have hmeta' : hIsImageMetadata h v = false := by
        revert hmeta
        cases hIsImageMetadata h v <;> simp
      cases v with
      | href a =>
        cases hl : alookup a h with
        | none => simp [hProcessValue, hmeta', hl] at hrun
        | some o =>
          cases o with
          | harr items =>
            cases hi : hProcessItems fuel h next items with
            | none => simp [hProcessValue, hmeta', hl, hi] at hrun
            | some t =>
              obtain ⟨h1, n1, items'⟩ := t
              have hext := PItems items h next h1 n1 items' hi
              simp only [hProcessValue, hmeta', Bool.false_eq_true, if_false, hl,
                hi, Option.some.injEq, Prod.mk.injEq] at hrun
              obtain ⟨rfl, rfl, rfl⟩ := hrun
              exact heapExtends_alloc hext (.harr items')
          | hobj fields =>
            cases ha : hProcessAddr fuel h next a with
            | none => simp [hProcessValue, hmeta', hl, ha] at hrun
            | some t =>
              obtain ⟨h1, n1, r⟩ := t
              have hext := PAddr h next a h1 n1 r ha
              simp only [hProcessValue, hmeta', Bool.false_eq_true, if_false, hl,
                ha, Option.some.injEq, Prod.mk.injEq] at hrun
              obtain ⟨rfl, rfl, rfl⟩ := hrun
              exact hext.1
      | hstr s =>
        simp only [hProcessValue, hmeta', Bool.false_eq_true, if_false,
          Option.some.injEq, Prod.mk.injEq] at hrun
        obtain ⟨rfl, rfl, rfl⟩ := hrun
        exact heapExtends_refl h next
      | hnum m =>
        simp only [hProcessValue, hmeta', Bool.false_eq_true, if_false,
          Option.some.injEq, Prod.mk.injEq] at hrun
        obtain ⟨rfl, rfl, rfl⟩ := hrun
        exact heapExtends_refl h next
      | hbool b =>
        simp only [hProcessValue, hmeta', Bool.false_eq_true, if_false,
          Option.some.injEq, Prod.mk.injEq] at hrun
        obtain ⟨rfl, rfl, rfl⟩ := hrun
        exact heapExtends_refl h next
      | hnull =>
        simp only [hProcessValue, hmeta', Bool.false_eq_true, if_false,
          Option.some.injEq, Prod.mk.injEq] at hrun
        obtain ⟨rfl, rfl, rfl⟩ := hrun
        exact heapExtends_refl h next
      | hundef =>
        simp only [hProcessValue, hmeta', Bool.false_eq_true, if_false,
          Option.some.injEq, Prod.mk.injEq] at hrun
        obtain ⟨rfl, rfl, rfl⟩ := hrun
        exact heapExtends_refl h next
  have PFields : ∀ l h next h' n' l', hProcessFields fuel h next l = some (h', n', l') →
      HeapExtends h h' next n' := by
    intro l
    induction l with
    | nil =>
      intro h next h' n' l' hrun
      simp only [hProcessFields, Option.some.injEq, Prod.mk.injEq] at hrun
      obtain ⟨rfl, rfl, rfl⟩ := hrun
      exact heapExtends_refl h next
    | cons kv rest ih =>
      obtain ⟨k, v⟩ := kv
      intro h next h' n' l' hrun
      cases hv : hProcessValue fuel h next v with
      | none => simp [hProcessFields, hv] at hrun
      | some t =>
        obtain ⟨h1, n1, v'⟩ := t
        cases hr : hProcessFields fuel h1 n1 rest with
        | none => simp [hProcessFields, hv, hr] at hrun
        | some t2 =>
          obtain ⟨h2, n2, rest'⟩ := t2
          simp only [hProcessFields, hv, hr, Option.some.injEq, Prod.mk.injEq] at hrun
          obtain ⟨rfl, rfl, rfl⟩ := hrun
          exact heapExtends_trans (PValue h next v h1 n1 v' hv)
            (ih h1 n1 h2 n2 rest' hr)
  exact ⟨PAddr, PItem, (fun h next l => PItems l h next),
    PValue, (fun h next l => PFields l h next)⟩

/-- C9: `processImageMetadata` never mutates its input.  In the heap
embedding: a successful run on the record at address `a` returns a heap
in which every address present in the input heap — the argument record
and every nested object or array inside it — still maps to exactly its
original cell, and the result record lives at a fresh address (at or
above the allocation counter, hence, on a well-formed heap, absent from
the input heap): the normalized tree is a freshly built value. -/
theorem c9_processImageMetadata_no_mutation
    (fuel : Nat) (h : List (Nat × HObj)) (next a : Nat)
    (h' : List (Nat × HObj)) (n' r : Nat)
    (hrun : hProcessAddr fuel h next a = some (h', n', r)) :
    (∀ b, (alookup b h).isSome = true → alookup b h' = alookup b h)
    ∧ next ≤ r
    ∧ ((∀ p ∈ h, p.1 < next) → alookup r h = none) := by
  obtain ⟨⟨hle, ext, rfl, hfr⟩, hr, hrn⟩ := (hProcess_frame fuel).1 h next a h' n' r hrun
  exact ⟨fun b hb => alookup_append_of_isSome b h ext hb, hr,
    fun hwf => alookup_none_of_ge h next r hwf hr⟩

/-- C9 (witness): a concrete two-cell heap (a record holding a nested
image-metadata object) is processed; both original cells are unchanged
in the output heap and the result record sits at the fresh address 2. -/
theorem c9_processImageMetadata_no_mutation_witness :
    alookup 0 ([(0, HObj.hobj [("img", HVal.href 1)]),
        (1, HObj.hobj [("src", HVal.hstr "/x.png"), ("width", HVal.hnum 10)])]
        ++ [(2, HObj.hobj [("img", HVal.hstr "/x.png")])])
      = alookup 0 [(0, HObj.hobj [("img", HVal.href 1)]),
        (1, HObj.hobj [("src", HVal.hstr "/x.png"), ("width", HVal.hnum 10)])]
    ∧ alookup 1 ([(0, HObj.hobj [("img", HVal.href 1)]),
        (1, HObj.hobj [("src", HVal.hstr "/x.png"), ("width", HVal.hnum 10)])]
        ++ [(2, HObj.hobj [("img", HVal.hstr "/x.png")])])
      = alookup 1 [(0, HObj.hobj [("img", HVal.href 1)]),
        (1, HObj.hobj [("src", HVal.hstr "/x.png"), ("width", HVal.hnum 10)])]
    ∧ (2 : Nat) ≤ 2
    ∧ alookup 2 [(0, HObj.hobj [("img", HVal.href 1)]),
        (1, HObj.hobj [("src", HVal.hstr "/x.png"), ("width", HVal.hnum 10)])] = none := by
  have hrun : hProcessAddr 3
      [(0, HObj.hobj [("img", HVal.href 1)]),
       (1, HObj.hobj [("src", HVal.hstr "/x.png"), ("width", HVal.hnum 10)])] 2 0
      = some ([(0, HObj.hobj [("img", HVal.href 1)]),
          (1, HObj.hobj [("src", HVal.hstr "/x.png"), ("width", HVal.hnum 10)])]
          ++ [(2, HObj.hobj [("img", HVal.hstr "/x.png")])], 3, 2) := by
    simp [hProcessAddr, hProcessFields, hProcessValue, hIsImageMetadata,
      hConvertImageMetadataToUrl, htruthy, alookup]
  have h9 := c9_processImageMetadata_no_mutation 3 _ 2 0 _ 3 2 hrun
  refine ⟨h9.1 0 (by simp [alookup]), h9.1 1 (by simp [alookup]), h9.2.1, ?_⟩
  exact h9.2.2 (by
    intro p hp
    rcases List.mem_cons.mp hp with rfl | hp
    · simp
    · rcases List.mem_cons.mp hp with rfl | hp
      · simp
      · simp at hp)

end StorybookAstro
